import Mathlib

/-!
# Mini-shell: tokenizer and pipeline evaluator

A shallow embedding of `tokenize_lib.c` (the tokenizer) and `shell.c` (the
sequence / pipe / redirect stages, `process_input` and `run_shell`), with the
properties of the specification stated over it.

Conventions of the embedding.

* A C `char` buffer seen from a cursor is a `List Char`: the head is the byte
  under the cursor, and every position past the end of the list reads as the
  terminator `NUL` (the shell's buffers are zero-initialised arrays of 256
  bytes, so the bytes that are not listed are zero).
* A token array seen from a pointer is the `List` of the entries before the
  first `NULL`; the flag array `quoted_tokens` is a separate `List Nat` that is
  advanced by the same pointer arithmetic as the token array.
* `fork`, `pipe`, `close`, `dup` and `malloc` are taken to succeed; the
  outcome of `chdir`, of `open` and the contents of script files come from a
  `World`. What a process does is a list of `Step`s in program order; a step
  that forks holds the steps of the child.
* Recursive C functions carry a `fuel` argument; the functions named as in
  the source supply the fuel, and the `_fuel_enough` theorems show that the
  result does not depend on it once it exceeds the length of the range.
-/

namespace Shell

/-! ## The tokenizer (`tokenize_lib.c`) -/

/-- The terminator byte of a C string. -/
def NUL : Char := Char.ofNat 0

/-- Function `is_special` (tokenize_lib.c:17-25): the seven special characters. -/
def is_special (ch : Char) : Bool :=
  ch == '(' || ch == ')' || ch == '<' || ch == '>' || ch == ';' || ch == '|' || ch == '\t'

/-- One entry written by `tokenize`: the text copied into `token_list[token_index]`, and
whether the branch that wrote it also stored `1` in `quoted_tokens[token_index]`
(only the quote branch does, line 67; the other two branches leave the flag slot alone). -/
structure Token where
  text : List Char
  quoted : Bool
deriving DecidableEq, Repr

/-- Condition of the inner loop of the quote branch (line 59). -/
def in_quote (c : Char) : Bool := c != '"' && c != NUL

/-- Condition of the inner loop of the word branch (line 84). -/
def in_word (c : Char) : Bool := !(is_special c) && c != ' ' && c != NUL

/-- The scanning loop of `tokenize` (lines 48-94) on the buffer from the cursor `i` on.
Every round of the outer loop moves the cursor forward, so `fuel` bounds the rounds.
In the quote branch the cursor is moved one further position after the inner loop
(line 69) whether that loop stopped at a closing quote or at the terminator. -/
def tokenize_loop : Nat → List Char → List Token
  | 0, _ => []
  | _ + 1, [] => []
  | fuel + 1, c :: cs =>
    if c == NUL then []
    else if c == ' ' then tokenize_loop fuel cs
    else if c == '"' then
      ⟨cs.takeWhile in_quote, true⟩ :: tokenize_loop fuel ((cs.dropWhile in_quote).drop 1)
    else if is_special c then ⟨[c], false⟩ :: tokenize_loop fuel cs
    else ⟨(c :: cs).takeWhile in_word, false⟩ :: tokenize_loop fuel ((c :: cs).dropWhile in_word)

/-- C `strlen`: the number of bytes before the first terminator. -/
def strlen (s : List Char) : Nat := (s.takeWhile (fun c => c != NUL)).length

/-- Lines 43-45 of `tokenize`: a newline in the last position of the string is
overwritten by the terminator. For an empty string the byte tested (and possibly
overwritten) lies before the buffer, so the buffer itself is unchanged. -/
def strip_newline (str_in : List Char) : List Char :=
  if 0 < strlen str_in ∧ str_in.getD (strlen str_in - 1) NUL = '\n' then
    str_in.set (strlen str_in - 1) NUL
  else str_in

/-- The tokens `tokenize` writes for the buffer `str_in`, in order. -/
def tokenize_tokens (str_in : List Char) : List Token :=
  tokenize_loop (strip_newline str_in).length (strip_newline str_in)

/-- The flag array after `tokenize`: slot `k` holds `1` when token `k` came from the
quote branch and keeps the caller's value otherwise. -/
def store_quoted : List Token → List Nat → List Nat
  | [], flags => flags
  | _ :: _, [] => []
  | t :: ts, f :: flags => (if t.quoted then 1 else f) :: store_quoted ts flags

/-- What a call of `tokenize` leaves behind. -/
structure Tokenized where
  /-- the returned `token_index` -/
  count : Nat
  /-- `token_list[0 .. count]`; `none` is the `NULL` stored at line 96 -/
  token_list : List (Option (List Char))
  /-- the caller's array `quoted_tokens` after the call -/
  quoted_tokens : List Nat
deriving DecidableEq, Repr

/-- Function `tokenize` (tokenize_lib.c:40-99). -/
def tokenize (str_in : List Char) (quoted_tokens : List Nat) : Tokenized :=
  let toks := tokenize_tokens str_in
  { count := toks.length
    token_list := toks.map (fun t => some t.text) ++ [none]
    quoted_tokens := store_quoted toks quoted_tokens }

/-! ### Where the cursor of the tokenizer stands

A reading of the input line that is independent of the token loop: a three-state
scanner that says, for a prefix of the line, whether the next character would start
a token, continue a word, or lie inside a quoted span. -/

/-- Position of the cursor relative to the tokens. -/
inductive Mode where
  | between
  | word
  | quote
deriving DecidableEq, Repr

/-- One character of the line. -/
def Mode.step : Mode → Char → Mode
  | .between, c =>
    if c == ' ' then .between else if c == '"' then .quote
    else if is_special c then .between else .word
  | .word, c => if c == ' ' || is_special c then .between else .word
  | .quote, c => if c == '"' then .between else .quote

/-- The mode reached from `m` after the characters `s`. -/
def mode_after (m : Mode) (s : List Char) : Mode := s.foldl Mode.step m

/-! ## The evaluator (`shell.c`) -/

/-- Macro `MAX_LINE_CHARS` (shell.c:12). -/
def MAX_LINE_CHARS : Nat := 255

/-- The string held by a buffer: the bytes before the first terminator. -/
def cstr (buf : List Char) : List Char := buf.takeWhile (fun c => c != NUL)

/-- The entries of a token array before the first `NULL`. -/
def until_null : List (Option (List Char)) → List (List Char)
  | some t :: rest => t :: until_null rest
  | _ => []

/-- What standard input or standard output of a process is bound to. -/
inductive Fd where
  /-- the descriptor the interpreter itself was started with -/
  | inherited
  /-- a file opened by a redirection -/
  | file (path : List Char)
  /-- the read end of the pipe made by the enclosing pipe stage -/
  | pipe_read
  /-- the write end of the pipe made by the enclosing pipe stage -/
  | pipe_write
deriving DecidableEq, Repr

/-- The part of the operating system the evaluator asks questions of. Paths are
resolved against the working directory of the asking process. -/
structure World where
  /-- `chdir(path)` in a process whose directory is `cwd`: the new directory, or failure -/
  chdir : (cwd : List Char) → (path : List Char) → Option (List Char)
  /-- whether `open(path, O_RDONLY)` succeeds -/
  open_read : (cwd : List Char) → (path : List Char) → Bool
  /-- whether `open(path, O_WRONLY | O_CREAT | O_TRUNC, 0644)` succeeds -/
  open_write : (cwd : List Char) → (path : List Char) → Bool
  /-- `fopen(name, "r")`: the chunks successive `fgets` calls return, or failure -/
  script : (cwd : List Char) → (name : List Char) → Option (List (List Char))

/-- One thing a process does. The steps of a process are listed in program order. -/
inductive Step where
  /-- `exec_cmd(args)`: a child is forked, calls `execvp(args[0], args)` with the given
  standard input and output, and is waited for. `argv = []` is the call on an empty
  range, where `args[0]` is the `NULL` sentinel. -/
  | exec (argv : List (List Char)) (stdin stdout : Fd) (cwd : List Char)
  /-- `exec_cd(path)` and whether `chdir` succeeded -/
  | chdir (path : List Char) (ok : Bool)
  /-- `exec_help()` -/
  | help
  /-- `fopen` failed in `exec_source` -/
  | source_missing (name : List Char)
  /-- a line printed by `process_input` -/
  | print (text : List Char)
  /-- `perror("No redirect file specified")` -/
  | no_redirect_file
  /-- `close(0); open(path, O_RDONLY)` and whether it succeeded; on failure the process exits -/
  | open_in (path : List Char) (ok : Bool)
  /-- `close(1); open(path, O_WRONLY | O_CREAT | O_TRUNC, 0644)` and whether it succeeded -/
  | open_out (path : List Char) (ok : Bool)
  /-- a `NULL` pointer is handed to `strcmp` or `memset`: the process is killed -/
  | null_deref
  /-- `fork()`; the child does `child` and exits; the parent blocks in `wait(NULL)`.
  A process that has no other child (the interpreter never has one) goes on only when
  this child has ended; inside the consumer of a pipeline the producer is a child of the
  same process, and `wait(NULL)` may return for it instead. -/
  | fork_wait (child : List Step)
  /-- `pipe()` and `fork()`: the new child does `producer` with its standard output on the
  write end while this process does `consumer` with its standard input on the read end -/
  | pipeline (producer consumer : List Step)
  /-- the model ran out of fuel (never the case with the fuel the stages are given) -/
  | out_of_fuel

/-- What a stage leaves behind in the process that ran it. -/
structure Run where
  /-- the steps taken, in order -/
  steps : List Step
  /-- the working directory of the process afterwards -/
  cwd : List Char
  /-- the buffer `input_cli` points to afterwards (`none` for a `NULL` pointer) -/
  input_cli : Option (List Char)
  /-- `false` when the process was killed by the last step -/
  alive : Bool

/-- Function `exec_cmd` (shell.c:47-66). -/
def exec_cmd (args : List (List Char)) (stdin stdout : Fd) (cwd : List Char) : List Step :=
  [Step.exec args stdin stdout cwd]

/-- Function `exec_cd` (shell.c:74-78): the step and the directory afterwards. -/
def exec_cd (w : World) (file_path : List Char) (cwd : List Char) : List Step × List Char :=
  match w.chdir cwd file_path with
  | some d => ([Step.chdir file_path true], d)
  | none => ([Step.chdir file_path false], cwd)

/-- The loop of `exec_source` (shell.c:101-112) over the chunks still to be read.
`line_buf` is the buffer the chunk is read into, which keeps the bytes of earlier
chunks behind the new terminator (the source does not initialise it; its first bytes
are taken to be zero). The line is handed to `exec_cmd` as it is tokenized, without
the three stages, and `strncpy` then fills all of `input_cli` with the line. -/
def exec_source_loop : List (List Char) → List Char → Option (List Char) → Fd → Fd →
    List Char → Run
  | [], _, input_cli, _, _, cwd => { steps := [], cwd := cwd, input_cli := input_cli, alive := true }
  | chunk :: rest, line_buf, input_cli, stdin, stdout, cwd =>
    let buf := strip_newline (strip_newline (chunk ++ NUL :: line_buf.drop (chunk.length + 1)))
    let tokens := (tokenize_tokens (strip_newline
      (chunk ++ NUL :: line_buf.drop (chunk.length + 1)))).map Token.text
    match input_cli with
    | none =>
      { steps := exec_cmd tokens stdin stdout cwd ++ [Step.null_deref], cwd := cwd,
        input_cli := none, alive := false }
    | some _ =>
      let r := exec_source_loop rest buf (some (cstr buf)) stdin stdout cwd
      { r with steps := exec_cmd tokens stdin stdout cwd ++ r.steps }

/-- Function `exec_source` (shell.c:89-115). -/
def exec_source (w : World) (file_name : List Char) (input_cli : Option (List Char))
    (stdin stdout : Fd) (cwd : List Char) : Run :=
  match w.script cwd file_name with
  | none => { steps := [Step.source_missing file_name], cwd := cwd, input_cli := input_cli,
              alive := true }
  | some chunks => exec_source_loop chunks [] input_cli stdin stdout cwd

/-- The scan loop shared by the three stages (shell.c:141-144, 226-227, 304-305): the
first index `tok_idx` whose token is one of `ops` and whose flag `quoted_tokens[tok_idx]`
is not `1`. The flag array is read at the same index as the token array. -/
def find_op (ops : List (List Char)) : List (List Char) → List Nat → Option Nat
  | [], _ => none
  | t :: ts, quoted_tokens =>
    if ops.contains t && quoted_tokens.headD 0 != 1 then some 0
    else (find_op ops ts quoted_tokens.tail).map (fun i => i + 1)

/-- Function `process_redirects` (shell.c:138-192); `fuel` bounds the depth of its recursion. -/
def process_redirects_fuel (w : World) : Nat → List (List Char) → List Nat → Fd → Fd →
    List Char → List Step
  | 0, _, _, _, _, _ => [Step.out_of_fuel]
  | fuel + 1, tokens, quoted_tokens, stdin, stdout, cwd =>
    match find_op ["<".toList, ">".toList] tokens quoted_tokens with
    | none => exec_cmd tokens stdin stdout cwd
    | some tok_idx =>
      match tokens.get? (tok_idx + 1) with
      | none => [Step.no_redirect_file]
      | some path =>
        let child :=
          if tokens.get? tok_idx = some "<".toList then
            if w.open_read cwd path then
              Step.open_in path true ::
                process_redirects_fuel w fuel (tokens.take tok_idx) quoted_tokens
                  (Fd.file path) stdout cwd
            else [Step.open_in path false]
          else
            if w.open_write cwd path then
              Step.open_out path true ::
                process_redirects_fuel w fuel (tokens.take tok_idx) quoted_tokens
                  stdin (Fd.file path) cwd
            else [Step.open_out path false]
        Step.fork_wait child ::
          process_redirects_fuel w fuel (tokens.drop (tok_idx + 2))
            (quoted_tokens.drop (tok_idx + 2)) stdin stdout cwd

/-- Function `process_redirects` with the fuel its recursion needs. -/
def process_redirects (w : World) (tokens : List (List Char)) (quoted_tokens : List Nat)
    (stdin stdout : Fd) (cwd : List Char) : List Step :=
  process_redirects_fuel w (tokens.length + 1) tokens quoted_tokens stdin stdout cwd

/-- Function `process_pipes` (shell.c:206-289); `fuel` bounds the depth of its recursion. -/
def process_pipes_fuel (w : World) : Nat → List (List Char) → List Nat →
    Option (List Char) → Fd → Fd → List Char → Run
  | 0, _, _, input_cli, _, _, cwd =>
    { steps := [Step.out_of_fuel], cwd := cwd, input_cli := input_cli, alive := true }
  | fuel + 1, tokens, quoted_tokens, input_cli, stdin, stdout, cwd =>
    match tokens.head? with
    | none => { steps := [Step.null_deref], cwd := cwd, input_cli := input_cli, alive := false }
    | some first =>
      if first = "cd".toList then
        match tokens.get? 1 with
        | some path =>
          { steps := (exec_cd w path cwd).1, cwd := (exec_cd w path cwd).2,
            input_cli := input_cli, alive := true }
        | none => { steps := [], cwd := cwd, input_cli := input_cli, alive := true }
      else if first = "source".toList then
        match tokens.get? 1 with
        | some name => exec_source w name input_cli stdin stdout cwd
        | none => { steps := [], cwd := cwd, input_cli := input_cli, alive := true }
      else if first = "help".toList then
        { steps := [Step.help], cwd := cwd, input_cli := input_cli, alive := true }
      else
        match find_op ["|".toList] tokens quoted_tokens with
        | some tok_idx =>
          { steps := [Step.fork_wait [Step.pipeline
              (process_redirects w (tokens.take tok_idx) quoted_tokens stdin Fd.pipe_write cwd)
              (process_pipes_fuel w fuel (tokens.drop (tok_idx + 1))
                (quoted_tokens.drop (tok_idx + 1)) none Fd.pipe_read stdout cwd).steps]],
            cwd := cwd, input_cli := input_cli, alive := true }
        | none =>
          { steps := process_redirects w tokens quoted_tokens stdin stdout cwd,
            cwd := cwd, input_cli := input_cli, alive := true }

/-- Function `process_pipes` with the fuel its recursion needs. -/
def process_pipes (w : World) (tokens : List (List Char)) (quoted_tokens : List Nat)
    (input_cli : Option (List Char)) (stdin stdout : Fd) (cwd : List Char) : Run :=
  process_pipes_fuel w (tokens.length + 1) tokens quoted_tokens input_cli stdin stdout cwd

/-- Function `process_sequence` (shell.c:301-327); `fuel` bounds the depth of its recursion.
The child forked for the part before a `;` works on a copy of the process, so what it
does to the directory and to the buffer is lost when it exits. -/
def process_sequence_fuel (w : World) : Nat → List (List Char) → List Nat →
    Option (List Char) → Fd → Fd → List Char → Run
  | 0, _, _, input_cli, _, _, cwd =>
    { steps := [Step.out_of_fuel], cwd := cwd, input_cli := input_cli, alive := true }
  | fuel + 1, tokens, quoted_tokens, input_cli, stdin, stdout, cwd =>
    match find_op [";".toList] tokens quoted_tokens with
    | some tok_idx =>
      let rest := process_sequence_fuel w fuel (tokens.drop (tok_idx + 1))
        (quoted_tokens.drop (tok_idx + 1)) input_cli stdin stdout cwd
      { rest with
        steps := Step.fork_wait
          (process_pipes w (tokens.take tok_idx) quoted_tokens input_cli stdin stdout cwd).steps
            :: rest.steps }
    | none => process_pipes w tokens quoted_tokens input_cli stdin stdout cwd

/-- Function `process_sequence` with the fuel its recursion needs. -/
def process_sequence (w : World) (tokens : List (List Char)) (quoted_tokens : List Nat)
    (input_cli : Option (List Char)) (stdin stdout : Fd) (cwd : List Char) : Run :=
  process_sequence_fuel w (tokens.length + 1) tokens quoted_tokens input_cli stdin stdout cwd

/-- The characters one `fgets` call takes from the stream: up to `n` of them, ending
after the first newline. -/
def take_line : Nat → List Char → List Char
  | 0, _ => []
  | _ + 1, [] => []
  | n + 1, c :: cs => if c == '\n' then [c] else c :: take_line n cs

/-- C `fgets(buf, size, stdin)` on the rest of the input stream: `none` at end of input,
else the buffer (the bytes behind the new terminator keep their old value) and the
stream that is left. -/
def fgets (buf : List Char) (size : Nat) (stream : List Char) :
    Option (List Char × List Char) :=
  match stream with
  | [] => none
  | _ :: _ =>
    some (take_line (size - 1) stream ++ NUL :: buf.drop ((take_line (size - 1) stream).length + 1),
      stream.drop (take_line (size - 1) stream).length)

/-- Function `read_input` (shell.c:24-34); `none` is the return value `-1`. -/
def read_input (input : List Char) (stream : List Char) : Option (List Char × List Char) :=
  match fgets input MAX_LINE_CHARS stream with
  | none => none
  | some (buf, rest) => some (strip_newline buf, rest)

/-- Function `process_input` (shell.c:338-358). `depth` bounds the nesting of the
recursive call of line 347; `none` means that the nesting went deeper than `depth`.
The arrays `quoted_args` and `tokens` are fresh and zeroed in every call. The buffer
`input` is what `input_cli` points to in the result. -/
def process_input (w : World) : Nat → List Char → List Char → List Char → Option Run
  | 0, _, _, _ => none
  | depth + 1, input, prev_input, cwd =>
    match (until_null (tokenize input (List.replicate (MAX_LINE_CHARS + 1) 0)).token_list).head? with
    | none =>
      some { steps := [Step.null_deref], cwd := cwd, input_cli := some (strip_newline input),
             alive := false }
    | some first =>
      if first = "prev".toList then
        if prev_input.headD NUL != NUL then
          match process_input w depth
              (cstr prev_input ++ NUL :: (strip_newline input).drop (strlen prev_input + 1))
              prev_input cwd with
          | none => none
          | some r => some { r with steps := Step.print (cstr prev_input) :: r.steps }
        else
          some { steps := [Step.print
                   "No previous commands run, please run a command before running \"prev\"".toList],
                 cwd := cwd, input_cli := some (strip_newline input), alive := true }
      else
        some (process_sequence w
          (until_null (tokenize input (List.replicate (MAX_LINE_CHARS + 1) 0)).token_list)
          (tokenize input (List.replicate (MAX_LINE_CHARS + 1) 0)).quoted_tokens
          (some (strip_newline input)) Fd.inherited Fd.inherited cwd)

/-- The loop of `run_shell` (shell.c:370-390) on what is left of standard input. `fuel`
bounds the rounds (every round takes at least one character from the stream); `none`
means that a call of `process_input` nested deeper than `depth`. The prompts and the
greetings are not recorded. -/
def run_shell_loop (w : World) (depth : Nat) : Nat → List Char → List Char → List Char →
    Option Run
  | 0, input_buf, cwd, _ =>
    some { steps := [Step.out_of_fuel], cwd := cwd, input_cli := some input_buf, alive := true }
  | fuel + 1, input_buf, cwd, stream =>
    match read_input input_buf stream with
    | none => some { steps := [], cwd := cwd, input_cli := some input_buf, alive := true }
    | some (buf, rest) =>
      if cstr buf = "exit".toList then
        some { steps := [], cwd := cwd, input_cli := some buf, alive := true }
      else if buf.headD NUL = NUL then run_shell_loop w depth fuel buf cwd rest
      else
        match process_input w depth buf (cstr input_buf) cwd with
        | none => none
        | some r =>
          if r.alive then
            match run_shell_loop w depth fuel (r.input_cli.getD []) r.cwd rest with
            | none => none
            | some r' => some { r' with steps := r.steps ++ r'.steps }
          else some r

/-- Function `run_shell` (shell.c:365-391) started in directory `cwd` on the input `stream`. -/
def run_shell (w : World) (depth : Nat) (cwd : List Char) (stream : List Char) : Option Run :=
  run_shell_loop w depth (stream.length + 1) [] cwd stream

/-- A world in which every directory and every file can be opened and no script exists. -/
def open_world : World :=
  { chdir := fun _ path => some path
    open_read := fun _ _ => true
    open_write := fun _ _ => true
    script := fun _ _ => none }

/-! ### The splitting the specification describes -/

/-- The sub-ranges of a token sequence between its unquoted `;` tokens, read off the
specification: walk the tokens left to right, close the current sub-range at a `;`
whose flag is not set, and leave that `;` out. Each sub-range comes with the part of
the flag array that starts at its first token. -/
def spec_split_from (cur : List (List Char)) (cur_flags : List Nat) :
    List (List Char) → List Nat → List (List (List Char) × List Nat)
  | [], _ => [(cur, cur_flags)]
  | t :: ts, flags =>
    if t = ";".toList ∧ flags.headD 0 ≠ 1 then
      (cur, cur_flags) :: spec_split_from [] flags.tail ts flags.tail
    else spec_split_from (cur ++ [t]) cur_flags ts flags.tail

/-- The sub-ranges of `tokens` between its unquoted `;` tokens. -/
def spec_split (tokens : List (List Char)) (quoted_tokens : List Nat) :
    List (List (List Char) × List Nat) :=
  spec_split_from [] quoted_tokens tokens quoted_tokens

/-- The evaluation of sub-ranges one after the other, as the specification describes
it: each sub-range but the last is given to the pipe stage in a child that is waited
for before the next one starts, whatever that child did; the last one is given to the
pipe stage in the calling process. -/
def spec_run_segments (w : World) (input_cli : Option (List Char)) (stdin stdout : Fd)
    (cwd : List Char) : List (List (List Char) × List Nat) → Run
  | [] => { steps := [], cwd := cwd, input_cli := input_cli, alive := true }
  | [seg] => process_pipes w seg.1 seg.2 input_cli stdin stdout cwd
  | seg :: rest =>
    { spec_run_segments w input_cli stdin stdout cwd rest with
      steps := Step.fork_wait (process_pipes w seg.1 seg.2 input_cli stdin stdout cwd).steps ::
        (spec_run_segments w input_cli stdin stdout cwd rest).steps }

/-! ### The stages on tokens that carry their own flag

The data model of the specification has one record per token, `text` with `quoted`.
The functions below are the three stages read on such records: there is no second
array and no pointer arithmetic, a sub-range is a sub-list of records, and the only
tokens a stage may split at are records whose `quoted` is `false`. -/

/-- The records for a token range and the flag array that starts at its first token:
record `k` has the text of token `k` and is quoted when flag slot `k` holds `1`. -/
def with_flags : List (List Char) → List Nat → List Token
  | [], _ => []
  | t :: ts, flags => ⟨t, flags.headD 0 == 1⟩ :: with_flags ts flags.tail

/-- The first record that is spelled as one of `ops` and is not quoted. -/
def token_find (ops : List (List Char)) : List Token → Option Nat
  | [] => none
  | t :: ts =>
    if ops.contains t.text && !t.quoted then some 0
    else (token_find ops ts).map (fun i => i + 1)

/-- The redirect stage on records: the tokens before the first unquoted `<` or `>` are
executed in a child with the file that follows the operator bound to its input or
output, and the stage goes on with the records behind the file name. -/
def token_redirects_fuel (w : World) : Nat → List Token → Fd → Fd → List Char → List Step
  | 0, _, _, _, _ => [Step.out_of_fuel]
  | fuel + 1, ts, stdin, stdout, cwd =>
    match token_find ["<".toList, ">".toList] ts with
    | none => [Step.exec (ts.map Token.text) stdin stdout cwd]
    | some idx =>
      match ts.get? (idx + 1) with
      | none => [Step.no_redirect_file]
      | some file =>
        Step.fork_wait
          (if (ts.get? idx).map Token.text = some "<".toList then
            if w.open_read cwd file.text then
              [Step.open_in file.text true,
               Step.exec ((ts.take idx).map Token.text) (Fd.file file.text) stdout cwd]
            else [Step.open_in file.text false]
          else
            if w.open_write cwd file.text then
              [Step.open_out file.text true,
               Step.exec ((ts.take idx).map Token.text) stdin (Fd.file file.text) cwd]
            else [Step.open_out file.text false]) ::
          token_redirects_fuel w fuel (ts.drop (idx + 2)) stdin stdout cwd

/-- The redirect stage on records, with the fuel its recursion needs. -/
def token_redirects (w : World) (ts : List Token) (stdin stdout : Fd) (cwd : List Char) :
    List Step :=
  token_redirects_fuel w (ts.length + 1) ts stdin stdout cwd

/-- The pipe stage on records: a built-in first token takes the whole range; else the
records before the first unquoted `|` go to the redirect stage as the producer and the
records behind it go to the pipe stage again as the consumer. -/
def token_pipes_fuel (w : World) : Nat → List Token → Option (List Char) → Fd → Fd →
    List Char → Run
  | 0, _, input_cli, _, _, cwd =>
    { steps := [Step.out_of_fuel], cwd := cwd, input_cli := input_cli, alive := true }
  | fuel + 1, ts, input_cli, stdin, stdout, cwd =>
    match ts.head? with
    | none => { steps := [Step.null_deref], cwd := cwd, input_cli := input_cli, alive := false }
    | some first =>
      if first.text = "cd".toList then
        match ts.get? 1 with
        | some path =>
          { steps := (exec_cd w path.text cwd).1, cwd := (exec_cd w path.text cwd).2,
            input_cli := input_cli, alive := true }
        | none => { steps := [], cwd := cwd, input_cli := input_cli, alive := true }
      else if first.text = "source".toList then
        match ts.get? 1 with
        | some name => exec_source w name.text input_cli stdin stdout cwd
        | none => { steps := [], cwd := cwd, input_cli := input_cli, alive := true }
      else if first.text = "help".toList then
        { steps := [Step.help], cwd := cwd, input_cli := input_cli, alive := true }
      else
        match token_find ["|".toList] ts with
        | some idx =>
          { steps := [Step.fork_wait [Step.pipeline
              (token_redirects w (ts.take idx) stdin Fd.pipe_write cwd)
              (token_pipes_fuel w fuel (ts.drop (idx + 1)) none Fd.pipe_read stdout
                cwd).steps]],
            cwd := cwd, input_cli := input_cli, alive := true }
        | none =>
          { steps := token_redirects w ts stdin stdout cwd,
            cwd := cwd, input_cli := input_cli, alive := true }

/-- The pipe stage on records, with the fuel its recursion needs. -/
def token_pipes (w : World) (ts : List Token) (input_cli : Option (List Char))
    (stdin stdout : Fd) (cwd : List Char) : Run :=
  token_pipes_fuel w (ts.length + 1) ts input_cli stdin stdout cwd

/-- The sequence stage on records: the records before the first unquoted `;` go to the
pipe stage in a child that is waited for, the records behind it to the sequence stage
again. -/
def token_sequence_fuel (w : World) : Nat → List Token → Option (List Char) → Fd → Fd →
    List Char → Run
  | 0, _, input_cli, _, _, cwd =>
    { steps := [Step.out_of_fuel], cwd := cwd, input_cli := input_cli, alive := true }
  | fuel + 1, ts, input_cli, stdin, stdout, cwd =>
    match token_find [";".toList] ts with
    | some idx =>
      { token_sequence_fuel w fuel (ts.drop (idx + 1)) input_cli stdin stdout cwd with
        steps := Step.fork_wait (token_pipes w (ts.take idx) input_cli stdin stdout cwd).steps ::
          (token_sequence_fuel w fuel (ts.drop (idx + 1)) input_cli stdin stdout cwd).steps }
    | none => token_pipes w ts input_cli stdin stdout cwd

/-- The sequence stage on records, with the fuel its recursion needs. -/
def token_sequence (w : World) (ts : List Token) (input_cli : Option (List Char))
    (stdin stdout : Fd) (cwd : List Char) : Run :=
  token_sequence_fuel w (ts.length + 1) ts input_cli stdin stdout cwd

/-- The token loop with exactly the fuel the buffer needs. -/
def lex (s : List Char) : List Token := tokenize_loop s.length s

/-- The next character ends a word run (or there is none). -/
def stops (rest : List Char) : Prop := ∀ c ∈ rest.head?, in_word c = false

/-! ## Theorems -/

theorem in_word_start {c : Char} (h0 : ¬ c = NUL) (h1 : ¬ c = ' ')
    (h3 : ¬ is_special c = true) : in_word c = true := by
  simp [in_word, h0, h1, h3]

theorem length_dropWhile_le_self (p : Char → Bool) (l : List Char) :
    (l.dropWhile p).length ≤ l.length := by
  induction l with
  | nil => simp
  | cons a l ih =>
    by_cases h : p a
    · simp only [List.dropWhile_cons_of_pos h, List.length_cons]; omega
    · simp [List.dropWhile_cons_of_neg h]

/-- Any fuel that covers the length of the buffer gives the same tokens. -/
theorem tokenize_loop_fuel : ∀ (f g : Nat) (s : List Char),
    s.length ≤ f → s.length ≤ g → tokenize_loop f s = tokenize_loop g s := by
  intro f
  induction f with
  | zero =>
    intro g s hf _
    have : s = [] := List.length_eq_zero.mp (by omega)
    subst this
    cases g <;> simp [tokenize_loop]
  | succ f ih =>
    intro g s hf hg
    cases s with
    | nil => cases g <;> simp [tokenize_loop]
    | cons c cs =>
      cases g with
      | zero => simp at hg
      | succ g =>
        simp only [List.length_cons, Nat.add_le_add_iff_right] at hf hg
        have hq := length_dropWhile_le_self in_quote cs
        have hw := length_dropWhile_le_self in_word cs
        have hd : ((cs.dropWhile in_quote).drop 1).length ≤ cs.length := by
          rw [List.length_drop]; omega
        simp only [tokenize_loop]
        rw [ih g cs hf hg, ih g _ (le_trans hd hf) (le_trans hd hg)]
        by_cases h0 : c = NUL
        · simp [h0]
        by_cases h1 : c = ' '
        · simp [h0, h1]
        by_cases h2 : c = '"'
        · simp [h0, h1, h2]
        by_cases h3 : is_special c = true
        · simp [h0, h1, h2, h3]
        · have hwc := in_word_start h0 h1 h3
          simp only [beq_iff_eq, h0, h1, h2, h3, if_false, List.dropWhile_cons_of_pos hwc,
            Bool.false_eq_true]
          rw [ih g _ (le_trans hw hf) (le_trans hw hg)]

theorem lex_nil : lex [] = [] := rfl

/-- One round of the outer loop, read on `lex`. -/
theorem lex_cons (c : Char) (cs : List Char) :
    lex (c :: cs) =
      if c = NUL then []
      else if c = ' ' then lex cs
      else if c = '"' then
        ⟨cs.takeWhile in_quote, true⟩ :: lex ((cs.dropWhile in_quote).drop 1)
      else if is_special c = true then ⟨[c], false⟩ :: lex cs
      else ⟨c :: cs.takeWhile in_word, false⟩ :: lex (cs.dropWhile in_word) := by
  have hq := length_dropWhile_le_self in_quote cs
  have hw := length_dropWhile_le_self in_word cs
  have hd : ((cs.dropWhile in_quote).drop 1).length ≤ cs.length := by
    rw [List.length_drop]; omega
  simp only [lex, List.length_cons, tokenize_loop, beq_iff_eq]
  by_cases h0 : c = NUL
  · simp [h0]
  by_cases h1 : c = ' '
  · simp [h0, h1]
  by_cases h2 : c = '"'
  · simp only [h0, h1, h2, if_true, if_false]
    rw [tokenize_loop_fuel cs.length _ _ hd le_rfl]
  by_cases h3 : is_special c = true
  · simp [h0, h1, h2, h3]
  · have hwc := in_word_start h0 h1 h3
    simp only [h0, h1, h2, h3, if_false, List.dropWhile_cons_of_pos hwc,
      List.takeWhile_cons_of_pos hwc]
    rw [tokenize_loop_fuel cs.length _ _ hw le_rfl]

/-- Enough fuel: the tokens of `tokenize_loop` are those of `lex`. -/
theorem tokenize_loop_eq_lex (f : Nat) (s : List Char) (h : s.length ≤ f) :
    tokenize_loop f s = lex s :=
  tokenize_loop_fuel f s.length s h le_rfl

theorem mode_after_cons (m : Mode) (c : Char) (s : List Char) :
    mode_after m (c :: s) = mode_after (m.step c) s := rfl

theorem step_word_of_in_word {c : Char} (h : in_word c = true) : Mode.word.step c = .word := by
  simp only [in_word, Bool.and_eq_true, Bool.not_eq_true', bne_iff_ne, ne_eq] at h
  simp [Mode.step, h.1.1, h.1.2]

/-- A character that ends a word run and is not the terminator is a space or special;
the scanner is between tokens after it, whether it was in a word or between tokens. -/
theorem step_of_not_in_word {c : Char} (h : in_word c = false) (h0 : c ≠ NUL) :
    Mode.word.step c = .between ∧ Mode.between.step c = .between := by
  by_cases h1 : c = ' '
  · subst h1; exact ⟨rfl, rfl⟩
  by_cases h3 : is_special c = true
  · have h2 : c ≠ '"' := by rintro rfl; exact absurd h3 (by decide)
    simp [Mode.step, h1, h2, h3]
  · exact absurd (in_word_start h0 h1 h3) (by simp [h])

/-- A word run read by the scanner: either it fills the whole text, or it is cut by
the first character that ends a word. -/
theorem word_split : ∀ (p : List Char), NUL ∉ p →
    ((∀ x ∈ p, in_word x = true) ∧ mode_after .word p = .word) ∨
    (∃ w d p', p = w ++ d :: p' ∧ (∀ x ∈ w, in_word x = true) ∧ in_word d = false ∧
      mode_after .between (d :: p') = mode_after .word p) := by
  intro p
  induction p with
  | nil => intro _; left; exact ⟨by simp, rfl⟩
  | cons c p ih =>
    intro hn
    have hc : c ≠ NUL := fun h => hn (by simp [h])
    have hp : NUL ∉ p := fun h => hn (by simp [h])
    by_cases hw : in_word c = true
    · rcases ih hp with ⟨hall, hm⟩ | ⟨w, d, p', rfl, hwall, hd, hm⟩
      · left
        refine ⟨?_, ?_⟩
        · intro x hx
          rcases List.mem_cons.mp hx with rfl | hx
          · exact hw
          · exact hall x hx
        · rw [mode_after_cons, step_word_of_in_word hw]; exact hm
      · right
        refine ⟨c :: w, d, p', by simp, ?_, hd, ?_⟩
        · intro x hx
          rcases List.mem_cons.mp hx with rfl | hx
          · exact hw
          · exact hwall x hx
        · rw [mode_after_cons (m := .word), step_word_of_in_word hw]; exact hm
    · right
      have hw' : in_word c = false := by simpa using hw
      refine ⟨[], c, p, by simp, by simp, hw', ?_⟩
      rw [mode_after_cons, mode_after_cons, (step_of_not_in_word hw' hc).1,
        (step_of_not_in_word hw' hc).2]

/-- A quoted span read by the scanner: if the scanner leaves it, the text holds a
closing quote, and the characters before the first one are those of the span. -/
theorem quote_split : ∀ (p : List Char), NUL ∉ p → mode_after .quote p ≠ .quote →
    ∃ q p', p = q ++ '"' :: p' ∧ (∀ x ∈ q, in_quote x = true) ∧
      mode_after .between p' = mode_after .quote p := by
  intro p
  induction p with
  | nil => intro _ h; exact absurd rfl h
  | cons c p ih =>
    intro hn hm
    have hc : c ≠ NUL := fun h => hn (by simp [h])
    have hp : NUL ∉ p := fun h => hn (by simp [h])
    by_cases h2 : c = '"'
    · subst h2
      exact ⟨[], p, by simp, by simp, rfl⟩
    · have hs : Mode.quote.step c = .quote := by simp [Mode.step, h2]
      rw [mode_after_cons, hs] at hm
      obtain ⟨q, p', rfl, hq, hm'⟩ := ih hp hm
      refine ⟨c :: q, p', by simp, ?_, ?_⟩
      · intro x hx
        rcases List.mem_cons.mp hx with rfl | hx
        · simp [in_quote, h2, hc]
        · exact hq x hx
      · rw [mode_after_cons (m := .quote), hs]; exact hm'

theorem takeWhile_stops (rest : List Char) (h : stops rest) :
    rest.takeWhile in_word = [] ∧ rest.dropWhile in_word = rest := by
  cases rest with
  | nil => simp
  | cons c r =>
    have hc : in_word c = false := h c (by simp)
    simp [List.takeWhile_cons, List.dropWhile_cons, hc]

/-- The tokens of a line split at every position where the scanner stands between
two tokens, and at the end of a word run when the next character ends the word. -/
theorem lex_append_aux : ∀ (n : Nat) (pre rest : List Char), pre.length ≤ n → NUL ∉ pre →
    (mode_after .between pre = .between ∨ (mode_after .between pre = .word ∧ stops rest)) →
    lex (pre ++ rest) = lex pre ++ lex rest := by
  intro n
  induction n with
  | zero =>
    intro pre rest hl _ _
    have : pre = [] := List.length_eq_zero.mp (by omega)
    subst this
    simp [lex_nil]
  | succ n ih =>
    intro pre rest hl hn hm
    cases pre with
    | nil => simp [lex_nil]
    | cons c p =>
      have hc : c ≠ NUL := fun h => hn (by simp [h])
      have hp : NUL ∉ p := fun h => hn (by simp [h])
      have hlp : p.length ≤ n := by simpa using hl
      rw [List.cons_append, lex_cons, lex_cons]
      rw [mode_after_cons] at hm
      by_cases h1 : c = ' '
      · subst h1
        have hs : Mode.between.step ' ' = .between := rfl
        rw [hs] at hm
        simp only [hc, if_false, if_true]
        exact ih p rest hlp hp hm
      by_cases h2 : c = '"'
      · subst h2
        have hs : Mode.between.step '"' = .quote := rfl
        rw [hs] at hm
        have hne : mode_after .quote p ≠ .quote := by
          rcases hm with h | ⟨h, _⟩ <;> simp [h]
        obtain ⟨q, p', rfl, hq, hm'⟩ := quote_split p hp hne
        have hq0 : in_quote '"' = false := by decide
        have hp' : NUL ∉ p' := fun h => hp (by simp [h])
        have hlp' : p'.length ≤ n := by
          simp only [List.length_append, List.length_cons] at hlp; omega
        rw [← hm'] at hm
        simp only [hc, h1, if_false, if_true, List.append_assoc, List.cons_append,
          List.takeWhile_append_of_pos hq, List.dropWhile_append_of_pos hq,
          List.takeWhile_cons, List.dropWhile_cons, hq0, List.drop_one, List.tail_cons,
          Bool.false_eq_true, List.append_nil]
        rw [ih p' rest hlp' hp' hm]
      by_cases h3 : is_special c = true
      · have hs : Mode.between.step c = .between := by simp [Mode.step, h1, h2, h3]
        rw [hs] at hm
        simp only [hc, h1, h2, h3, if_false, if_true]
        rw [ih p rest hlp hp hm, List.cons_append]
      · have hs : Mode.between.step c = .word := by simp [Mode.step, h1, h2, h3]
        rw [hs] at hm
        simp only [hc, h1, h2, h3, if_false, Bool.false_eq_true]
        rcases word_split p hp with ⟨hall, hmw⟩ | ⟨w, d, p', rfl, hw, hd, hmw⟩
        · have hst : stops rest := by
            rcases hm with h | ⟨_, h⟩
            · rw [hmw] at h; exact absurd h (by decide)
            · exact h
          have ht := takeWhile_stops rest hst
          have e1 : List.takeWhile in_word p = p := List.takeWhile_eq_self_iff.mpr hall
          have e2 : List.dropWhile in_word p = [] := List.dropWhile_eq_nil_iff.mpr hall
          simp only [List.takeWhile_append_of_pos hall, List.dropWhile_append_of_pos hall,
            ht.1, ht.2, e1, e2, List.append_nil, lex_nil, List.cons_append, List.nil_append]
        · have hp' : NUL ∉ d :: p' := fun h => hp (by
            rcases List.mem_cons.mp h with h | h <;> simp [h])
          have hlp' : (d :: p').length ≤ n := by
            simp only [List.length_append, List.length_cons] at hlp ⊢; omega
          rw [← hmw] at hm
          simp only [List.append_assoc, List.cons_append, List.takeWhile_append_of_pos hw,
            List.dropWhile_append_of_pos hw, List.takeWhile_cons, List.dropWhile_cons, hd,
            Bool.false_eq_true, if_false, List.append_nil]
          have := ih (d :: p') rest hlp' hp' hm
          rw [List.cons_append] at this
          rw [this]

/-- Tokens split where the scanner stands between two tokens. -/
theorem lex_append_between (pre rest : List Char) (hn : NUL ∉ pre)
    (hm : mode_after .between pre = .between) : lex (pre ++ rest) = lex pre ++ lex rest :=
  lex_append_aux pre.length pre rest le_rfl hn (Or.inl hm)

/-- Tokens split before a character that ends words, unless it lies in a quoted span. -/
theorem lex_append_outside (pre rest : List Char) (hn : NUL ∉ pre)
    (hm : mode_after .between pre ≠ .quote) (hs : stops rest) :
    lex (pre ++ rest) = lex pre ++ lex rest := by
  apply lex_append_aux pre.length pre rest le_rfl hn
  cases h : mode_after .between pre with
  | between => exact Or.inl rfl
  | word => exact Or.inr ⟨rfl, hs⟩
  | quote => exact absurd h hm

/-- A buffer without a newline is left as it is by lines 43-45. -/
theorem strip_newline_of_not_mem (s : List Char) (h : '\n' ∉ s) : strip_newline s = s := by
  unfold strip_newline
  rw [if_neg]
  rintro ⟨_, hg⟩
  rw [List.getD_eq_getElem?_getD] at hg
  cases hx : s[strlen s - 1]? with
  | none => rw [hx] at hg; exact absurd hg (by decide)
  | some x =>
    rw [hx] at hg
    have hmem : x ∈ s := List.getElem?_mem hx
    simp only [Option.getD_some] at hg
    exact h (hg ▸ hmem)

theorem tokenize_tokens_eq_lex (s : List Char) (h : '\n' ∉ s) : tokenize_tokens s = lex s := by
  simp [tokenize_tokens, strip_newline_of_not_mem s h, lex]

/-- No branch but the quote branch stores an empty text. -/
theorem tokenize_loop_text_ne_nil : ∀ (fuel : Nat) (s : List Char) (t : Token),
    t ∈ tokenize_loop fuel s → t.quoted = false → t.text ≠ [] := by
  intro fuel
  induction fuel with
  | zero => intro s t h; simp [tokenize_loop] at h
  | succ fuel ih =>
    intro s t h hq
    cases s with
    | nil => simp [tokenize_loop] at h
    | cons c cs =>
      simp only [tokenize_loop, beq_iff_eq] at h
      by_cases h0 : c = NUL
      · simp [h0] at h
      by_cases h1 : c = ' '
      · simp only [h0, h1, if_false, if_true] at h; exact ih _ t h hq
      by_cases h2 : c = '"'
      · subst h2
        simp only [h0, h1, if_false, if_true, List.mem_cons] at h
        rcases h with rfl | h
        · simp at hq
        · exact ih _ t h hq
      by_cases h3 : is_special c = true
      · simp only [h0, h1, h2, h3, if_false, if_true, List.mem_cons] at h
        rcases h with rfl | h
        · simp
        · exact ih _ t h hq
      · have hwc := in_word_start h0 h1 h3
        simp only [h0, h1, h2, h3, if_false, Bool.false_eq_true, List.mem_cons,
          List.takeWhile_cons_of_pos hwc] at h
        rcases h with rfl | h
        · simp
        · exact ih _ t h hq

/-- The flag slot of a token that has `pre` tokens before it. -/
theorem store_quoted_get : ∀ (a : List Token) (t : Token) (b : List Token) (flags : List Nat),
    a.length < flags.length →
    (store_quoted (a ++ t :: b) flags)[a.length]? =
      some (if t.quoted then 1 else flags.getD a.length 0) := by
  intro a
  induction a with
  | nil =>
    intro t b flags h
    cases flags with
    | nil => simp at h
    | cons f fs => simp [store_quoted]
  | cons x a ih =>
    intro t b flags h
    cases flags with
    | nil => simp at h
    | cons f fs =>
      have h' : a.length < fs.length := by simpa using h
      simpa [store_quoted] using ih t b fs h'

theorem lex_quote_closed (q post : List Char) (hq : ∀ x ∈ q, x ≠ '"' ∧ x ≠ NUL) :
    lex ('"' :: (q ++ '"' :: post)) = ⟨q, true⟩ :: lex post := by
  have hq' : ∀ x ∈ q, in_quote x = true := by
    intro x hx
    simp [in_quote, (hq x hx).1, (hq x hx).2]
  have hq0 : in_quote '"' = false := by decide
  rw [lex_cons]
  simp only [show ¬ ('"' = NUL) by decide, show ¬ ('"' = ' ') by decide, if_false, if_true,
    List.takeWhile_append_of_pos hq', List.dropWhile_append_of_pos hq', List.takeWhile_cons,
    List.dropWhile_cons, hq0, Bool.false_eq_true, List.append_nil, List.drop_one,
    List.tail_cons]

theorem lex_quote_open (q junk : List Char) (hq : ∀ x ∈ q, x ≠ '"' ∧ x ≠ NUL) :
    lex ('"' :: (q ++ NUL :: junk)) = ⟨q, true⟩ :: lex junk := by
  have hq' : ∀ x ∈ q, in_quote x = true := by
    intro x hx
    simp [in_quote, (hq x hx).1, (hq x hx).2]
  have hq0 : in_quote NUL = false := by decide
  rw [lex_cons]
  simp only [show ¬ ('"' = NUL) by decide, show ¬ ('"' = ' ') by decide, if_false, if_true,
    List.takeWhile_append_of_pos hq', List.dropWhile_append_of_pos hq', List.takeWhile_cons,
    List.dropWhile_cons, hq0, Bool.false_eq_true, List.append_nil, List.drop_one,
    List.tail_cons]

theorem lex_special (c : Char) (post : List Char) (hc : is_special c = true) :
    lex (c :: post) = ⟨[c], false⟩ :: lex post := by
  have h0 : ¬ c = NUL := by rintro rfl; exact absurd hc (by decide)
  have h1 : ¬ c = ' ' := by rintro rfl; exact absurd hc (by decide)
  have h2 : ¬ c = '"' := by rintro rfl; exact absurd hc (by decide)
  rw [lex_cons]
  simp [h0, h1, h2, hc]

theorem getElem?_map_append_length (a : List Token) (t : Token) (b : List Token) :
    ((a ++ t :: b).map (fun t => some t.text) ++ [none])[a.length]? = some (some t.text) := by
  induction a with
  | nil => simp
  | cons x a ih => simpa using ih

/-! ## The claims about the tokenizer -/

/-- C1: a double quote that starts a token and is closed by a later double quote gives
exactly one token, whose text is the enclosed characters and whose flag is set, between
the tokens of the text before it and the tokens of the text after it; `echo "a b" c`
gives count 3 and the tokens `echo`, `a b`, `c` with the flag of the second one set. -/
theorem tokenize_quoted_span (pre q post : List Char)
    (hnl : '\n' ∉ pre ++ '"' :: (q ++ '"' :: post))
    (hnul : NUL ∉ pre)
    (hstart : mode_after Mode.between pre = Mode.between)
    (hq : ∀ x ∈ q, x ≠ '"' ∧ x ≠ NUL) :
    tokenize_tokens (pre ++ '"' :: (q ++ '"' :: post)) =
        tokenize_tokens pre ++ ⟨q, true⟩ :: tokenize_tokens post ∧
    (∀ flags : List Nat,
      (tokenize (pre ++ '"' :: (q ++ '"' :: post)) flags).count =
        (tokenize pre flags).count + 1 + (tokenize post flags).count ∧
      ((tokenize pre flags).count < flags.length →
        (tokenize (pre ++ '"' :: (q ++ '"' :: post)) flags).token_list[(tokenize pre flags).count]?
          = some (some q) ∧
        (tokenize (pre ++ '"' :: (q ++ '"' :: post)) flags).quoted_tokens[(tokenize pre flags).count]?
          = some 1)) ∧
    tokenize "echo \"a b\" c".toList (List.replicate 256 0) =
      { count := 3
        token_list := [some "echo".toList, some "a b".toList, some "c".toList, none]
        quoted_tokens := 0 :: 1 :: List.replicate 254 0 } := by
  have hpre : '\n' ∉ pre := fun h => hnl (by simp [h])
  have hpost : '\n' ∉ post := fun h => hnl (by simp [h])
  have key : tokenize_tokens (pre ++ '"' :: (q ++ '"' :: post)) =
      tokenize_tokens pre ++ ⟨q, true⟩ :: tokenize_tokens post := by
    rw [tokenize_tokens_eq_lex _ hnl, tokenize_tokens_eq_lex _ hpre,
      tokenize_tokens_eq_lex _ hpost, lex_append_between pre _ hnul hstart,
      lex_quote_closed q post hq]
  refine ⟨key, ?_, by rfl⟩
  intro flags
  refine ⟨?_, ?_⟩
  · simp only [tokenize, key, List.length_append, List.length_cons]; omega
  · intro hlen
    simp only [tokenize] at hlen ⊢
    rw [key]
    exact ⟨getElem?_map_append_length _ _ _, by
      rw [store_quoted_get _ _ _ _ hlen]; rfl⟩

/-- Witness for C1: the line `echo "a b" c`. -/
theorem tokenize_quoted_span_witness :
    '\n' ∉ "echo ".toList ++ '"' :: ("a b".toList ++ '"' :: " c".toList) ∧
    mode_after Mode.between "echo ".toList = Mode.between ∧
    tokenize_tokens ("echo ".toList ++ '"' :: ("a b".toList ++ '"' :: " c".toList)) =
      tokenize_tokens "echo ".toList ++ ⟨"a b".toList, true⟩ :: tokenize_tokens " c".toList :=
  ⟨by decide, by decide,
    (tokenize_quoted_span "echo ".toList "a b".toList " c".toList (by decide) (by decide)
      (by decide) (by decide)).1⟩

/-- C2: a special character outside a quoted span becomes a token of its own, after the
tokens of the text before it (a word run before it ends there) and before the tokens of
the text after it; `a;b|c<d>e` gives count 9 and nine tokens followed by the sentinel. -/
theorem tokenize_special_char (pre post : List Char) (c : Char)
    (hc : is_special c = true)
    (hnl : '\n' ∉ pre ++ c :: post)
    (hnul : NUL ∉ pre)
    (hout : mode_after Mode.between pre ≠ Mode.quote) :
    tokenize_tokens (pre ++ c :: post) =
        tokenize_tokens pre ++ ⟨[c], false⟩ :: tokenize_tokens post ∧
    (∀ flags : List Nat,
      (tokenize (pre ++ c :: post) flags).token_list[(tokenize pre flags).count]? = some (some [c])) ∧
    (∀ flags : List Nat, tokenize "a;b|c<d>e".toList flags =
      { count := 9
        token_list := [some ['a'], some [';'], some ['b'], some ['|'], some ['c'], some ['<'],
          some ['d'], some ['>'], some ['e'], none]
        quoted_tokens := flags }) := by
  have hpre : '\n' ∉ pre := fun h => hnl (by simp [h])
  have hpost : '\n' ∉ post := fun h => hnl (by simp [h])
  have hstop : stops (c :: post) := by
    intro x hx
    simp only [List.head?_cons, Option.mem_def, Option.some.injEq] at hx
    subst hx
    simp [in_word, hc]
  have key : tokenize_tokens (pre ++ c :: post) =
      tokenize_tokens pre ++ ⟨[c], false⟩ :: tokenize_tokens post := by
    rw [tokenize_tokens_eq_lex _ hnl, tokenize_tokens_eq_lex _ hpre,
      tokenize_tokens_eq_lex _ hpost, lex_append_outside pre _ hnul hout hstop,
      lex_special c post hc]
  refine ⟨key, ?_, ?_⟩
  · intro flags
    simp only [tokenize]
    rw [key]
    exact getElem?_map_append_length _ _ _
  · intro flags
    have h : tokenize_tokens "a;b|c<d>e".toList =
        [⟨['a'], false⟩, ⟨[';'], false⟩, ⟨['b'], false⟩, ⟨['|'], false⟩, ⟨['c'], false⟩,
          ⟨['<'], false⟩, ⟨['d'], false⟩, ⟨['>'], false⟩, ⟨['e'], false⟩] := by decide
    simp only [tokenize, h]
    cases flags with
    | nil => rfl
    | cons f0 fl =>
      rcases fl with _ | ⟨f1, _ | ⟨f2, _ | ⟨f3, _ | ⟨f4, _ | ⟨f5, _ | ⟨f6, _ | ⟨f7, _ | ⟨f8, fl⟩⟩⟩⟩⟩⟩⟩⟩ <;>
        simp [store_quoted]

/-- Witness for C2: the `;` of `a;b|c<d>e`, which ends the word `a`. -/
theorem tokenize_special_char_witness :
    is_special ';' = true ∧
    mode_after Mode.between "a".toList ≠ Mode.quote ∧
    tokenize_tokens ("a".toList ++ ';' :: "b|c<d>e".toList) =
      tokenize_tokens "a".toList ++ ⟨[';'], false⟩ :: tokenize_tokens "b|c<d>e".toList :=
  ⟨by decide, by decide,
    (tokenize_special_char "a".toList "b|c<d>e".toList ';' (by decide) (by decide) (by decide)
      (by decide)).1⟩

/-- Counterexample to C7 as stated: the line `""` stores a token whose text is empty. -/
theorem tokenize_stores_empty_text :
    ¬ (∀ (str_in : List Char) (flags : List Nat) (k : Nat) (text : List Char),
        (tokenize str_in flags).token_list[k]? = some (some text) → 1 ≤ text.length) := by
  intro h
  have h1 := h ['"', '"'] [] 0 [] (by decide)
  simp at h1

/-- C7 (amended): the array holds `count` tokens followed by the sentinel, the sentinel
is stored at index `count` and nowhere else, and every token that was not written by
the quote branch has a text of length at least 1. -/
theorem tokenize_text_nonempty_unless_quoted (str_in : List Char) (flags : List Nat) :
    (tokenize str_in flags).token_list.length = (tokenize str_in flags).count + 1 ∧
    (∀ k, (tokenize str_in flags).token_list[k]? = some none ↔
      k = (tokenize str_in flags).count) ∧
    (∀ k, k < (tokenize str_in flags).count →
      ∃ t, (tokenize_tokens str_in)[k]? = some t ∧
        (tokenize str_in flags).token_list[k]? = some (some t.text) ∧
        (t.quoted = false → 1 ≤ t.text.length)) := by
  simp only [tokenize]
  refine ⟨by simp, ?_, ?_⟩
  · intro k
    rcases Nat.lt_trichotomy k (tokenize_tokens str_in).length with hk | hk | hk
    · rw [List.getElem?_append_left (by simpa using hk)]
      simp only [List.getElem?_map]
      constructor
      · intro h
        rw [List.getElem?_eq_getElem hk] at h
        simp at h
      · intro h; omega
    · subst hk
      simp [List.getElem?_append_right]
    · constructor
      · intro h
        rw [List.getElem?_eq_none (by simp; omega)] at h
        simp at h
      · intro h; omega
  · intro k hk
    refine ⟨(tokenize_tokens str_in)[k], List.getElem?_eq_getElem hk, ?_, ?_⟩
    · rw [List.getElem?_append_left (by simpa using hk)]
      simp [List.getElem?_eq_getElem hk]
    · intro hq
      have hmem : (tokenize_tokens str_in)[k] ∈ tokenize_tokens str_in := List.getElem_mem _
      have := tokenize_loop_text_ne_nil _ _ _ hmem hq
      exact Nat.pos_of_ne_zero (fun h => this (List.length_eq_zero.mp h))

/-- Lines 43-45 change nothing when the string of the buffer holds no newline,
whatever lies behind its terminator. -/
theorem strip_newline_of_cstr (line junk : List Char) (hnul : NUL ∉ line)
    (hnl : '\n' ∉ line) : strip_newline (line ++ NUL :: junk) = line ++ NUL :: junk := by
  have hall : ∀ x ∈ line, (fun c => c != NUL) x = true := by
    intro x hx
    have : x ≠ NUL := fun h => hnul (h ▸ hx)
    simpa using this
  have hlen : strlen (line ++ NUL :: junk) = line.length := by
    simp only [strlen, List.takeWhile_append_of_pos hall]
    simp [List.takeWhile_cons]
  unfold strip_newline
  rw [if_neg]
  rintro ⟨hpos, hg⟩
  rw [hlen] at hpos hg
  rw [List.getD_eq_getElem?_getD, List.getElem?_append_left (by omega)] at hg
  have hlt : line.length - 1 < line.length := by omega
  rw [List.getElem?_eq_getElem hlt] at hg
  simp only [Option.getD_some] at hg
  exact hnl (hg ▸ List.getElem_mem _)

/-- C8 (the code at the failing input): after an unterminated quote the scan goes on
one byte behind the terminator of the line. The buffers `"a\0\0` and `"a\0v\0` hold
the same line `"a` and give different tokens; the second one is what `process_input`
tokenizes for the line `prev` typed after the line `"a`. In general the tokens are
those of the text before the quote, the quoted token, and then the tokens of whatever
the buffer holds behind the terminator. -/
theorem tokenize_unterminated_quote_overrun :
    tokenize_tokens ['"', 'a', NUL, NUL] = [⟨['a'], true⟩] ∧
    tokenize_tokens ['"', 'a', NUL, 'v', NUL] = [⟨['a'], true⟩, ⟨['v'], false⟩] ∧
    (∀ pre q junk : List Char, '\n' ∉ pre ++ '"' :: q → NUL ∉ pre →
      mode_after Mode.between pre = Mode.between → (∀ x ∈ q, x ≠ '"' ∧ x ≠ NUL) →
      tokenize_tokens (pre ++ '"' :: (q ++ NUL :: junk)) =
        tokenize_tokens pre ++ ⟨q, true⟩ :: tokenize_loop junk.length junk) ∧
    (run_shell open_world 2 "/".toList "\"a\nprev\n".toList).map Run.steps =
      some [Step.exec [['a']] Fd.inherited Fd.inherited "/".toList,
            Step.print ['"', 'a'],
            Step.exec [['a'], ['v']] Fd.inherited Fd.inherited "/".toList] := by
  refine ⟨by decide, by decide, ?_, by rfl⟩
  intro pre q junk hnl hnul hstart hq
  have hpre : '\n' ∉ pre := fun h => hnl (by simp [h])
  have hline : NUL ∉ pre ++ '"' :: q := by
    intro h
    rcases List.mem_append.mp h with h | h
    · exact hnul h
    · rcases List.mem_cons.mp h with h | h
      · exact absurd h (by decide)
      · exact (hq _ h).2 rfl
  have hs := strip_newline_of_cstr (pre ++ '"' :: q) junk hline hnl
  have e : pre ++ '"' :: (q ++ NUL :: junk) = (pre ++ '"' :: q) ++ NUL :: junk := by simp
  unfold tokenize_tokens
  rw [e, hs, ← e, strip_newline_of_not_mem pre hpre]
  show lex _ = lex pre ++ _ :: lex junk
  rw [lex_append_between pre _ hnul hstart, lex_quote_open q junk hq]

/-! ## The evaluator: the scan for an operator -/

theorem contains_iff_mem (ops : List (List Char)) (t : List Char) :
    ops.contains t = true ↔ t ∈ ops := by
  simp

/-- The index the scan returns holds one of the operators with a flag that is not set,
and lies inside the range. -/
theorem find_op_some (ops : List (List Char)) : ∀ (tokens : List (List Char))
    (quoted : List Nat) (idx : Nat), find_op ops tokens quoted = some idx →
    (∃ t, tokens[idx]? = some t ∧ t ∈ ops) ∧ quoted.getD idx 0 ≠ 1 ∧ idx < tokens.length := by
  intro tokens
  induction tokens with
  | nil => intro quoted idx h; simp [find_op] at h
  | cons t ts ih =>
    intro quoted idx h
    simp only [find_op] at h
    split at h
    · rename_i hc
      simp only [Option.some.injEq] at h
      subst h
      simp only [Bool.and_eq_true, bne_iff_ne, ne_eq, contains_iff_mem] at hc
      refine ⟨⟨t, by simp, hc.1⟩, ?_, by simp⟩
      cases quoted <;> simp_all
    · cases hr : find_op ops ts quoted.tail with
      | none => simp [hr] at h
      | some j =>
        simp only [hr, Option.map_some', Option.some.injEq] at h
        subst h
        obtain ⟨⟨t', ht', hm⟩, hq, hlt⟩ := ih quoted.tail j hr
        refine ⟨⟨t', by simpa using ht', hm⟩, ?_, by simpa using hlt⟩
        cases quoted with
        | nil => simp
        | cons f fs => simpa using hq

/-- The scan finds nothing when every operator spelling in the range has its flag set. -/
theorem find_op_none_of_flagged (ops : List (List Char)) : ∀ (tokens : List (List Char))
    (quoted : List Nat), tokens.length ≤ quoted.length →
    (∀ p ∈ tokens.zip quoted, p.1 ∈ ops → p.2 = 1) → find_op ops tokens quoted = none := by
  intro tokens
  induction tokens with
  | nil => intro quoted _ _; rfl
  | cons t ts ih =>
    intro quoted hlen h
    cases quoted with
    | nil => simp at hlen
    | cons f fs =>
      have hlen' : ts.length ≤ fs.length := by simpa using hlen
      have h0 : t ∈ ops → f = 1 := fun hm => h (t, f) (by simp) hm
      have hrest : ∀ p ∈ ts.zip fs, p.1 ∈ ops → p.2 = 1 := by
        intro p hp
        exact h p (by simp [hp])
      simp only [find_op, List.headD_cons, List.tail_cons, ih fs hlen' hrest, Option.map_none']
      rw [if_neg]
      simp only [Bool.and_eq_true, bne_iff_ne, ne_eq, contains_iff_mem, not_and,
        Decidable.not_not]
      exact h0

/-- Any two amounts of fuel beyond the length of the range give the same steps of
`process_redirects`: the recursion ends before the fuel does. -/
theorem process_redirects_fuel_enough (w : World) : ∀ (f g : Nat) (tokens : List (List Char))
    (quoted : List Nat) (stdin stdout : Fd) (cwd : List Char),
    tokens.length < f → tokens.length < g →
    process_redirects_fuel w f tokens quoted stdin stdout cwd =
      process_redirects_fuel w g tokens quoted stdin stdout cwd := by
  intro f
  induction f with
  | zero => intro g tokens quoted stdin stdout cwd h; omega
  | succ f ih =>
    intro g tokens quoted stdin stdout cwd hf hg
    cases g with
    | zero => omega
    | succ g =>
      cases hfind : find_op ["<".toList, ">".toList] tokens quoted with
      | none => simp only [process_redirects_fuel, hfind]
      | some idx =>
        have hidx := (find_op_some _ _ _ _ hfind).2.2
        have htake : (tokens.take idx).length < f ∧ (tokens.take idx).length < g := by
          rw [List.length_take]; omega
        have hdrop : (tokens.drop (idx + 2)).length < f ∧
            (tokens.drop (idx + 2)).length < g := by
          rw [List.length_drop]; omega
        simp only [process_redirects_fuel, hfind]
        rw [ih g (tokens.drop (idx + 2)) (quoted.drop (idx + 2)) stdin stdout cwd
          hdrop.1 hdrop.2]
        cases hpath : tokens.get? (idx + 1) with
        | none => rfl
        | some path =>
          simp only
          rw [ih g (tokens.take idx) quoted (Fd.file path) stdout cwd htake.1 htake.2,
            ih g (tokens.take idx) quoted stdin (Fd.file path) cwd htake.1 htake.2]

/-- Any two amounts of fuel beyond the length of the range give the same run of
`process_pipes`. -/
theorem process_pipes_fuel_enough (w : World) : ∀ (f g : Nat) (tokens : List (List Char))
    (quoted : List Nat) (input_cli : Option (List Char)) (stdin stdout : Fd)
    (cwd : List Char), tokens.length < f → tokens.length < g →
    process_pipes_fuel w f tokens quoted input_cli stdin stdout cwd =
      process_pipes_fuel w g tokens quoted input_cli stdin stdout cwd := by
  intro f
  induction f with
  | zero => intro g tokens quoted input_cli stdin stdout cwd h; omega
  | succ f ih =>
    intro g tokens quoted input_cli stdin stdout cwd hf hg
    cases g with
    | zero => omega
    | succ g =>
      cases hfind : find_op ["|".toList] tokens quoted with
      | none => simp only [process_pipes_fuel, hfind]
      | some idx =>
        have hidx := (find_op_some _ _ _ _ hfind).2.2
        have hdrop : (tokens.drop (idx + 1)).length < f ∧
            (tokens.drop (idx + 1)).length < g := by
          rw [List.length_drop]; omega
        simp only [process_pipes_fuel, hfind]
        rw [ih g (tokens.drop (idx + 1)) (quoted.drop (idx + 1)) none Fd.pipe_read stdout cwd
          hdrop.1 hdrop.2]

/-- The left-to-right splitting and the scan of `process_sequence` agree: the first
sub-range ends at the index the scan finds, and the splitting goes on behind it. -/
theorem spec_split_from_find : ∀ (ts : List (List Char)) (q : List Nat)
    (cur : List (List Char)) (cf : List Nat),
    (find_op [";".toList] ts q = none → spec_split_from cur cf ts q = [(cur ++ ts, cf)]) ∧
    (∀ idx, find_op [";".toList] ts q = some idx →
      spec_split_from cur cf ts q =
        (cur ++ ts.take idx, cf) ::
          spec_split_from [] (q.drop (idx + 1)) (ts.drop (idx + 1)) (q.drop (idx + 1))) := by
  intro ts
  induction ts with
  | nil =>
    intro q cur cf
    exact ⟨fun _ => by simp [spec_split_from], fun idx h => by simp [find_op] at h⟩
  | cons t ts ih =>
    intro q cur cf
    by_cases hc : t = ";".toList ∧ q.headD 0 ≠ 1
    · have hf : find_op [";".toList] (t :: ts) q = some 0 := by
        simp only [find_op]
        rw [if_pos]
        simp only [Bool.and_eq_true, bne_iff_ne, ne_eq, contains_iff_mem, List.mem_singleton]
        exact hc
      refine ⟨fun h => by rw [hf] at h; exact absurd h (by simp), fun idx h => ?_⟩
      rw [hf] at h
      simp only [Option.some.injEq] at h
      subst h
      simp only [spec_split_from, if_pos hc, List.take_zero, List.append_nil, zero_add,
        List.drop_one, List.drop_succ_cons, List.drop_zero]
    · have hf : find_op [";".toList] (t :: ts) q =
          (find_op [";".toList] ts q.tail).map (fun i => i + 1) := by
        simp only [find_op]
        rw [if_neg]
        simp only [Bool.and_eq_true, bne_iff_ne, ne_eq, contains_iff_mem, List.mem_singleton]
        exact hc
      obtain ⟨ih1, ih2⟩ := ih q.tail (cur ++ [t]) cf
      refine ⟨fun h => ?_, fun idx h => ?_⟩
      · rw [hf] at h
        have h' : find_op [";".toList] ts q.tail = none := by
          cases hr : find_op [";".toList] ts q.tail with
          | none => rfl
          | some j => rw [hr] at h; exact absurd h (by simp)
        simp only [spec_split_from, if_neg hc, ih1 h', List.append_assoc, List.singleton_append]
      · rw [hf] at h
        cases hr : find_op [";".toList] ts q.tail with
        | none => rw [hr] at h; exact absurd h (by simp)
        | some j =>
          rw [hr] at h
          simp only [Option.map_some', Option.some.injEq] at h
          subst h
          simp only [spec_split_from, if_neg hc, ih2 j hr, List.append_assoc,
            List.singleton_append, List.take_succ_cons, List.drop_succ_cons]
          cases q <;> simp

theorem spec_run_segments_cons (w : World) (input_cli : Option (List Char))
    (stdin stdout : Fd) (cwd : List Char) (seg s2 : List (List Char) × List Nat)
    (rest : List (List (List Char) × List Nat)) :
    spec_run_segments w input_cli stdin stdout cwd (seg :: s2 :: rest) =
      { spec_run_segments w input_cli stdin stdout cwd (s2 :: rest) with
        steps := Step.fork_wait (process_pipes w seg.1 seg.2 input_cli stdin stdout cwd).steps ::
          (spec_run_segments w input_cli stdin stdout cwd (s2 :: rest)).steps } := by
  simp [spec_run_segments]

theorem spec_split_from_ne_nil : ∀ (ts : List (List Char)) (q : List Nat)
    (cur : List (List Char)) (cf : List Nat), spec_split_from cur cf ts q ≠ [] := by
  intro ts
  induction ts with
  | nil => intro q cur cf; simp [spec_split_from]
  | cons t ts ih =>
    intro q cur cf
    simp only [spec_split_from]
    split
    · simp
    · exact ih _ _ _

/-- With fuel beyond the length of the range, `process_sequence` is the evaluation of
the sub-ranges between the unquoted `;` tokens, one after the other. -/
theorem process_sequence_fuel_eq (w : World) (input_cli : Option (List Char))
    (stdin stdout : Fd) (cwd : List Char) : ∀ (fuel : Nat) (tokens : List (List Char))
    (quoted : List Nat), tokens.length < fuel →
    process_sequence_fuel w fuel tokens quoted input_cli stdin stdout cwd =
      spec_run_segments w input_cli stdin stdout cwd (spec_split tokens quoted) := by
  intro fuel
  induction fuel with
  | zero => intro tokens quoted h; omega
  | succ fuel ih =>
    intro tokens quoted hlen
    obtain ⟨h1, h2⟩ := spec_split_from_find tokens quoted [] quoted
    cases hf : find_op [";".toList] tokens quoted with
    | none =>
      simp only [process_sequence_fuel, hf, spec_split, h1 hf, List.nil_append,
        spec_run_segments]
    | some idx =>
      have hidx := (find_op_some _ _ _ _ hf).2.2
      have hdrop : (tokens.drop (idx + 1)).length < fuel := by
        rw [List.length_drop]; omega
      have hrest := ih (tokens.drop (idx + 1)) (quoted.drop (idx + 1)) hdrop
      obtain ⟨s2, rest, hs⟩ : ∃ s2 rest, spec_split (tokens.drop (idx + 1))
          (quoted.drop (idx + 1)) = s2 :: rest := by
        cases hsp : spec_split (tokens.drop (idx + 1)) (quoted.drop (idx + 1)) with
        | nil => exact absurd hsp (spec_split_from_ne_nil _ _ _ _)
        | cons s2 rest => exact ⟨s2, rest, rfl⟩
      have hsplit : spec_split tokens quoted =
          (tokens.take idx, quoted) ::
            spec_split (tokens.drop (idx + 1)) (quoted.drop (idx + 1)) := by
        unfold spec_split
        simpa using h2 idx hf
      simp only [process_sequence_fuel, hf, hrest]
      rw [hsplit, hs, spec_run_segments_cons]

/-- When the scan finds nothing, every operator spelling in the range has its flag set. -/
theorem flagged_of_find_op_none (ops : List (List Char)) : ∀ (tokens : List (List Char))
    (quoted : List Nat), find_op ops tokens quoted = none →
    ∀ p ∈ tokens.zip quoted, p.1 ∈ ops → p.2 = 1 := by
  intro tokens
  induction tokens with
  | nil => intro quoted _ p hp; simp at hp
  | cons t ts ih =>
    intro quoted h p hp hm
    cases quoted with
    | nil => simp at hp
    | cons f fs =>
      simp only [find_op, List.headD_cons, List.tail_cons] at h
      split at h
      · exact absurd h (by simp)
      · rename_i hc
        have hrest : find_op ops ts fs = none := by
          cases hr : find_op ops ts fs with
          | none => rfl
          | some j => rw [hr] at h; exact absurd h (by simp)
        simp only [List.zip_cons_cons, List.mem_cons] at hp
        rcases hp with rfl | hp
        · simp only [Bool.and_eq_true, bne_iff_ne, ne_eq, contains_iff_mem, not_and,
            Decidable.not_not] at hc
          exact hc hm
        · exact ih fs hrest p hp hm

/-- The scan returns the first index: nothing is found before it. -/
theorem find_op_take (ops : List (List Char)) : ∀ (tokens : List (List Char))
    (quoted : List Nat) (idx : Nat), find_op ops tokens quoted = some idx →
    find_op ops (tokens.take idx) quoted = none := by
  intro tokens
  induction tokens with
  | nil => intro quoted idx h; simp [find_op] at h
  | cons t ts ih =>
    intro quoted idx h
    simp only [find_op] at h
    split at h
    · simp only [Option.some.injEq] at h
      subst h
      rfl
    · rename_i hc
      cases hr : find_op ops ts quoted.tail with
      | none => rw [hr] at h; exact absurd h (by simp)
      | some j =>
        rw [hr] at h
        simp only [Option.map_some', Option.some.injEq] at h
        subst h
        simp only [List.take_succ_cons, find_op, if_neg hc, ih quoted.tail j hr,
          Option.map_none']

theorem spec_split_of_none (tokens : List (List Char)) (quoted : List Nat)
    (h : find_op [";".toList] tokens quoted = none) :
    spec_split tokens quoted = [(tokens, quoted)] := by
  unfold spec_split
  simpa using (spec_split_from_find tokens quoted [] quoted).1 h

theorem spec_split_of_some (tokens : List (List Char)) (quoted : List Nat) (idx : Nat)
    (h : find_op [";".toList] tokens quoted = some idx) :
    spec_split tokens quoted =
      (tokens.take idx, quoted) ::
        spec_split (tokens.drop (idx + 1)) (quoted.drop (idx + 1)) := by
  unfold spec_split
  simpa using (spec_split_from_find tokens quoted [] quoted).2 idx h

/-- The sub-ranges, put together again with a `;` between neighbours, are the range;
and no sub-range holds a `;` whose flag is not set. -/
theorem spec_split_sound : ∀ (n : Nat) (tokens : List (List Char)) (quoted : List Nat),
    tokens.length ≤ n →
    [";".toList].intercalate ((spec_split tokens quoted).map Prod.fst) = tokens ∧
    ∀ seg ∈ spec_split tokens quoted, ∀ p ∈ seg.1.zip seg.2, p.1 = ";".toList → p.2 = 1 := by
  intro n
  induction n with
  | zero =>
    intro tokens quoted hlen
    have : tokens = [] := List.length_eq_zero.mp (by omega)
    subst this
    refine ⟨by simp [spec_split, spec_split_from, List.intercalate], ?_⟩
    intro seg hseg p hp
    simp only [spec_split, spec_split_from, List.mem_singleton] at hseg
    subst hseg
    simp at hp
  | succ n ih =>
    intro tokens quoted hlen
    cases hf : find_op [";".toList] tokens quoted with
    | none =>
      rw [spec_split_of_none tokens quoted hf]
      refine ⟨by simp [List.intercalate], ?_⟩
      intro seg hseg p hp hm
      simp only [List.mem_singleton] at hseg
      subst hseg
      exact flagged_of_find_op_none _ tokens quoted hf p hp (by simp [hm])
    | some idx =>
      obtain ⟨⟨t, ht, hm⟩, _, hidx⟩ := find_op_some _ _ _ _ hf
      have hdrop : (tokens.drop (idx + 1)).length ≤ n := by
        rw [List.length_drop]; omega
      obtain ⟨ih1, ih2⟩ := ih (tokens.drop (idx + 1)) (quoted.drop (idx + 1)) hdrop
      rw [spec_split_of_some tokens quoted idx hf]
      obtain ⟨s2, rest, hs⟩ : ∃ s2 rest, spec_split (tokens.drop (idx + 1))
          (quoted.drop (idx + 1)) = s2 :: rest := by
        cases hsp : spec_split (tokens.drop (idx + 1)) (quoted.drop (idx + 1)) with
        | nil => exact absurd hsp (spec_split_from_ne_nil _ _ _ _)
        | cons s2 rest => exact ⟨s2, rest, rfl⟩
      refine ⟨?_, ?_⟩
      · rw [hs] at ih1 ⊢
        simp only [List.intercalate, List.map_cons, List.intersperse_cons_cons,
          List.flatten_cons] at ih1 ⊢
        rw [ih1]
        simp only [List.mem_singleton] at hm
        have hget : tokens[idx]? = some ";".toList := by rw [ht, hm]
        have e : tokens = tokens.take idx ++ ";".toList :: tokens.drop (idx + 1) := by
          have h1 := (List.take_append_drop idx tokens).symm
          have h2 : tokens.drop idx = ";".toList :: tokens.drop (idx + 1) := by
            rw [List.drop_eq_getElem_cons hidx]
            rw [List.getElem?_eq_getElem hidx] at hget
            simp only [Option.some.injEq] at hget
            rw [hget]
          rw [h2] at h1
          exact h1
        simpa using e.symm
      · intro seg hseg
        rcases List.mem_cons.mp hseg with rfl | hseg
        · intro p hp hm'
          exact flagged_of_find_op_none _ _ _ (find_op_take _ tokens quoted idx hf) p hp
            (by simp [hm'])
        · exact ih2 seg hseg

theorem getLast?_cons_of_some {α : Type} (a : α) (l : List α) (x : α)
    (h : l.getLast? = some x) : (a :: l).getLast? = some x := by
  cases l with
  | nil => simp at h
  | cons b l => rw [List.getLast?_cons_cons]; exact h

/-- The last sub-range of a range that ends with an unquoted `;` followed by tokens
without an unquoted `;` is made of those tokens. -/
theorem spec_split_from_last (seg : List (List Char)) (qseg : List Nat) (f : Nat)
    (hf : f ≠ 1) (hseg : find_op [";".toList] seg qseg = none) :
    ∀ (pre : List (List Char)) (qpre : List Nat) (cur : List (List Char)) (cf : List Nat),
    pre.length = qpre.length →
    (spec_split_from cur cf (pre ++ ";".toList :: seg) (qpre ++ f :: qseg)).getLast? =
      some (seg, qseg) := by
  intro pre
  induction pre with
  | nil =>
    intro qpre cur cf hlen
    have : qpre = [] := List.length_eq_zero.mp hlen.symm
    subst this
    have hc : ";".toList = ";".toList ∧ (f :: qseg).headD 0 ≠ 1 := ⟨rfl, by simpa using hf⟩
    rw [List.nil_append, List.nil_append, spec_split_from, if_pos hc, List.tail_cons,
      (spec_split_from_find seg qseg [] qseg).1 hseg]
    simp
  | cons t ts ih =>
    intro qpre cur cf hlen
    cases qpre with
    | nil => simp at hlen
    | cons g gs =>
      have hlen' : ts.length = gs.length := by simpa using hlen
      simp only [List.cons_append, spec_split_from, List.tail_cons]
      split
      · exact getLast?_cons_of_some _ _ _ (ih gs [] _ hlen')
      · exact ih gs _ _ hlen'

/-- The process that evaluates a list of sub-ranges is left as the pipe stage leaves it
on the last sub-range; the steps before that are the children of the other sub-ranges. -/
theorem spec_run_segments_last (w : World) (input_cli : Option (List Char))
    (stdin stdout : Fd) (cwd : List Char) : ∀ (segs : List (List (List Char) × List Nat))
    (last : List (List Char) × List Nat), segs.getLast? = some last →
    ∃ before, spec_run_segments w input_cli stdin stdout cwd segs =
      { process_pipes w last.1 last.2 input_cli stdin stdout cwd with
        steps := before ++ (process_pipes w last.1 last.2 input_cli stdin stdout cwd).steps } := by
  intro segs
  induction segs with
  | nil => intro last h; simp at h
  | cons seg rest ih =>
    intro last h
    cases rest with
    | nil =>
      simp only [List.getLast?_singleton, Option.some.injEq] at h
      subst h
      exact ⟨[], by simp [spec_run_segments]⟩
    | cons s2 rest =>
      rw [List.getLast?_cons_cons] at h
      obtain ⟨before, hb⟩ := ih last h
      refine ⟨Step.fork_wait (process_pipes w seg.1 seg.2 input_cli stdin stdout cwd).steps ::
        before, ?_⟩
      rw [spec_run_segments_cons, hb]
      simp

/-- Any fuel beyond the length of the range gives what `process_sequence` gives. -/
theorem process_sequence_fuel_enough (w : World) (input_cli : Option (List Char))
    (stdin stdout : Fd) (cwd : List Char) (fuel : Nat) (tokens : List (List Char))
    (quoted : List Nat) (h : tokens.length < fuel) :
    process_sequence_fuel w fuel tokens quoted input_cli stdin stdout cwd =
      process_sequence w tokens quoted input_cli stdin stdout cwd := by
  unfold process_sequence
  rw [process_sequence_fuel_eq w input_cli stdin stdout cwd fuel tokens quoted h,
    process_sequence_fuel_eq w input_cli stdin stdout cwd _ tokens quoted (Nat.lt_succ_self _)]

/-- The pipe stage on the range `cd path`, when `chdir` succeeds. -/
theorem process_pipes_cd (w : World) (path : List Char) (quoted : List Nat)
    (input_cli : Option (List Char)) (stdin stdout : Fd) (cwd d : List Char)
    (hdir : w.chdir cwd path = some d) :
    process_pipes w ["cd".toList, path] quoted input_cli stdin stdout cwd =
      { steps := [Step.chdir path true], cwd := d, input_cli := input_cli, alive := true } := by
  simp [process_pipes, process_pipes_fuel, exec_cd, hdir]

/-- The scan for `;` passes over `cd path` unless `path` is itself an unquoted `;`. -/
theorem find_op_cd_none (path : List Char) (qcd qpath : Nat) (qrest : List Nat)
    (hpath : ¬ (path = ";".toList ∧ qpath ≠ 1)) :
    find_op [";".toList] ["cd".toList, path] (qcd :: qpath :: qrest) = none := by
  have h1 : ([";".toList].contains "cd".toList && (qcd :: qpath :: qrest).headD 0 != 1)
      = false := by
    have : [";".toList].contains "cd".toList = false := by decide
    rw [this]; rfl
  have h2 : ([";".toList].contains path && (qpath :: qrest).headD 0 != 1) = false := by
    by_cases hp : path = ";".toList
    · have hq : qpath = 1 := by
        by_contra hne
        exact hpath ⟨hp, hne⟩
      subst hq
      simp
    · have : [";".toList].contains path = false := by
        rw [← Bool.not_eq_true, contains_iff_mem]
        simpa using hp
      rw [this]; rfl
  simp only [find_op, h1, h2, List.tail_cons, Bool.false_eq_true, if_false, Option.map_none']

/-- One round of `process_sequence` that finds an unquoted `;`. -/
theorem process_sequence_fuel_some (w : World) (input_cli : Option (List Char))
    (stdin stdout : Fd) (cwd : List Char) (fuel : Nat) (tokens : List (List Char))
    (quoted : List Nat) (idx : Nat) (h : find_op [";".toList] tokens quoted = some idx) :
    process_sequence_fuel w (fuel + 1) tokens quoted input_cli stdin stdout cwd =
      { process_sequence_fuel w fuel (tokens.drop (idx + 1)) (quoted.drop (idx + 1))
          input_cli stdin stdout cwd with
        steps := Step.fork_wait
          (process_pipes w (tokens.take idx) quoted input_cli stdin stdout cwd).steps ::
            (process_sequence_fuel w fuel (tokens.drop (idx + 1)) (quoted.drop (idx + 1))
              input_cli stdin stdout cwd).steps } := by
  simp only [process_sequence_fuel, h]

/-- A round of `run_shell` whose call of `process_input` never returns. -/
theorem run_shell_loop_none (w : World) (depth fuel : Nat) (input_buf cwd stream : List Char)
    (buf rest : List Char) (hread : read_input input_buf stream = some (buf, rest))
    (hexit : cstr buf ≠ "exit".toList) (hne : buf.headD NUL ≠ NUL)
    (hp : process_input w depth buf (cstr input_buf) cwd = none) :
    run_shell_loop w depth (fuel + 1) input_buf cwd stream = none := by
  simp only [run_shell_loop, hread, hexit, hne, hp, if_false]

/-- A round of `run_shell` whose call of `process_input` returns with the interpreter alive. -/
theorem run_shell_loop_some (w : World) (depth fuel : Nat) (input_buf cwd stream : List Char)
    (buf rest : List Char) (r : Run) (hread : read_input input_buf stream = some (buf, rest))
    (hexit : cstr buf ≠ "exit".toList) (hne : buf.headD NUL ≠ NUL)
    (hp : process_input w depth buf (cstr input_buf) cwd = some r) (halive : r.alive = true) :
    run_shell_loop w depth (fuel + 1) input_buf cwd stream =
      match run_shell_loop w depth fuel (r.input_cli.getD []) r.cwd rest with
      | none => none
      | some r' => some { r' with steps := r.steps ++ r'.steps } := by
  simp only [run_shell_loop, hread, hexit, hne, hp, halive, if_false, if_true]

/-- The call of `process_input` on the line `prev` with the stored line `prev` calls
itself on the same buffer with the same stored line, at every depth. -/
theorem process_input_prev_prev (w : World) (cwd : List Char) : ∀ depth : Nat,
    process_input w depth ("prev".toList ++ [NUL, NUL]) "prev".toList cwd = none := by
  intro depth
  induction depth with
  | zero => rfl
  | succ d ih =>
    have step : process_input w (d + 1) ("prev".toList ++ [NUL, NUL]) "prev".toList cwd =
        match process_input w d ("prev".toList ++ [NUL, NUL]) "prev".toList cwd with
        | none => none
        | some r => some { r with steps := Step.print (cstr "prev".toList) :: r.steps } := by
      rfl
    rw [step, ih]

/-! ## The stages on two arrays and the stages on records -/

theorem with_flags_text : ∀ (tokens : List (List Char)) (quoted : List Nat),
    (with_flags tokens quoted).map Token.text = tokens := by
  intro tokens
  induction tokens with
  | nil => intro quoted; rfl
  | cons t ts ih => intro quoted; simp [with_flags, ih]

theorem with_flags_length (tokens : List (List Char)) (quoted : List Nat) :
    (with_flags tokens quoted).length = tokens.length := by
  have h := congrArg List.length (with_flags_text tokens quoted)
  simpa using h

theorem with_flags_take : ∀ (n : Nat) (tokens : List (List Char)) (quoted : List Nat),
    with_flags (tokens.take n) quoted = (with_flags tokens quoted).take n := by
  intro n
  induction n with
  | zero => intro tokens quoted; simp [with_flags]
  | succ n ih =>
    intro tokens quoted
    cases tokens with
    | nil => simp [with_flags]
    | cons t ts => simp [with_flags, ih]

theorem with_flags_drop : ∀ (n : Nat) (tokens : List (List Char)) (quoted : List Nat),
    with_flags (tokens.drop n) (quoted.drop n) = (with_flags tokens quoted).drop n := by
  intro n
  induction n with
  | zero => intro tokens quoted; simp
  | succ n ih =>
    intro tokens quoted
    cases tokens with
    | nil => simp [with_flags]
    | cons t ts =>
      have hq : quoted.drop (n + 1) = quoted.tail.drop n := by
        cases quoted <;> simp
      simp only [List.drop_succ_cons, with_flags, hq, ih]

theorem with_flags_get? : ∀ (i : Nat) (tokens : List (List Char)) (quoted : List Nat),
    (with_flags tokens quoted).get? i =
      (tokens.get? i).map (fun t => ⟨t, quoted.getD i 0 == 1⟩) := by
  intro i
  induction i with
  | zero =>
    intro tokens quoted
    cases tokens with
    | nil => rfl
    | cons t ts => cases quoted <;> rfl
  | succ i ih =>
    intro tokens quoted
    cases tokens with
    | nil => rfl
    | cons t ts =>
      simp only [with_flags, List.get?_cons_succ, ih]
      cases quoted <;> simp

/-- The scan over two arrays is the scan over the records. -/
theorem find_op_eq_token_find (ops : List (List Char)) : ∀ (tokens : List (List Char))
    (quoted : List Nat), find_op ops tokens quoted = token_find ops (with_flags tokens quoted) := by
  intro tokens
  induction tokens with
  | nil => intro quoted; rfl
  | cons t ts ih =>
    intro quoted
    simp only [find_op, with_flags, token_find, ih quoted.tail]
    rfl

/-- A record the scan returns is not quoted and is spelled as one of the operators. -/
theorem token_find_some (ops : List (List Char)) : ∀ (ts : List Token) (idx : Nat),
    token_find ops ts = some idx →
    ∃ t, ts[idx]? = some t ∧ t.quoted = false ∧ t.text ∈ ops := by
  intro ts
  induction ts with
  | nil => intro idx h; simp [token_find] at h
  | cons t ts ih =>
    intro idx h
    simp only [token_find] at h
    split at h
    · rename_i hc
      simp only [Option.some.injEq] at h
      subst h
      simp only [Bool.and_eq_true, Bool.not_eq_true', contains_iff_mem] at hc
      exact ⟨t, by simp, hc.2, hc.1⟩
    · cases hr : token_find ops ts with
      | none => rw [hr] at h; exact absurd h (by simp)
      | some j =>
        rw [hr] at h
        simp only [Option.map_some', Option.some.injEq] at h
        subst h
        obtain ⟨t', ht', hq, hm⟩ := ih j hr
        exact ⟨t', by simpa using ht', hq, hm⟩

/-- A range without an unquoted redirection operator is executed as it is. -/
theorem process_redirects_fuel_of_none (w : World) (fuel : Nat) (tokens : List (List Char))
    (quoted : List Nat) (stdin stdout : Fd) (cwd : List Char)
    (h : find_op ["<".toList, ">".toList] tokens quoted = none) :
    process_redirects_fuel w (fuel + 1) tokens quoted stdin stdout cwd =
      [Step.exec tokens stdin stdout cwd] := by
  simp only [process_redirects_fuel, h, exec_cmd]

/-- The redirect stage on two arrays does what the redirect stage on records does. -/
theorem process_redirects_fuel_token (w : World) : ∀ (f : Nat) (tokens : List (List Char))
    (quoted : List Nat) (stdin stdout : Fd) (cwd : List Char), tokens.length < f →
    process_redirects_fuel w f tokens quoted stdin stdout cwd =
      token_redirects_fuel w f (with_flags tokens quoted) stdin stdout cwd := by
  intro f
  induction f with
  | zero => intro tokens quoted stdin stdout cwd h; omega
  | succ f ih =>
    intro tokens quoted stdin stdout cwd hlen
    cases hfind : find_op ["<".toList, ">".toList] tokens quoted with
    | none =>
      have hfind' := hfind
      rw [find_op_eq_token_find] at hfind'
      simp only [process_redirects_fuel, token_redirects_fuel, hfind, hfind', exec_cmd,
        with_flags_text]
    | some idx =>
      have hfind' := hfind
      rw [find_op_eq_token_find] at hfind'
      have hidx := (find_op_some _ _ _ _ hfind).2.2
      obtain ⟨f', rfl⟩ : ∃ f', f = f' + 1 := ⟨f - 1, by omega⟩
      have hdrop : (tokens.drop (idx + 2)).length < f' + 1 := by
        rw [List.length_drop]; omega
      have hchild : ∀ (i o : Fd), process_redirects_fuel w (f' + 1) (tokens.take idx) quoted
          i o cwd = [Step.exec (tokens.take idx) i o cwd] := fun i o =>
        process_redirects_fuel_of_none w f' _ quoted i o cwd (find_op_take _ tokens quoted idx hfind)
      have htake : ((with_flags tokens quoted).take idx).map Token.text = tokens.take idx := by
        rw [List.map_take, with_flags_text]
      have hop : Option.map Token.text (Option.map
          (fun t => (⟨t, quoted.getD idx 0 == 1⟩ : Token)) (tokens.get? idx)) =
          tokens.get? idx := by
        cases tokens.get? idx <;> rfl
      rw [process_redirects_fuel, token_redirects_fuel]
      simp only [hfind, hfind', with_flags_get?, hop, htake]
      cases hpath : tokens.get? (idx + 1) with
      | none => rfl
      | some path =>
        simp only [Option.map_some', hchild,
          ih (tokens.drop (idx + 2)) (quoted.drop (idx + 2)) stdin stdout cwd hdrop,
          with_flags_drop]

theorem process_redirects_token (w : World) (tokens : List (List Char)) (quoted : List Nat)
    (stdin stdout : Fd) (cwd : List Char) :
    process_redirects w tokens quoted stdin stdout cwd =
      token_redirects w (with_flags tokens quoted) stdin stdout cwd := by
  unfold process_redirects token_redirects
  rw [with_flags_length]
  exact process_redirects_fuel_token w _ tokens quoted stdin stdout cwd (Nat.lt_succ_self _)

theorem with_flags_head? (tokens : List (List Char)) (quoted : List Nat) :
    (with_flags tokens quoted).head? =
      (tokens.head?).map (fun t => (⟨t, quoted.headD 0 == 1⟩ : Token)) := by
  cases tokens <;> rfl

/-- The pipe stage on two arrays does what the pipe stage on records does. -/
theorem process_pipes_fuel_token (w : World) : ∀ (f : Nat) (tokens : List (List Char))
    (quoted : List Nat) (input_cli : Option (List Char)) (stdin stdout : Fd)
    (cwd : List Char), tokens.length < f →
    process_pipes_fuel w f tokens quoted input_cli stdin stdout cwd =
      token_pipes_fuel w f (with_flags tokens quoted) input_cli stdin stdout cwd := by
  intro f
  induction f with
  | zero => intro tokens quoted input_cli stdin stdout cwd h; omega
  | succ f ih =>
    intro tokens quoted input_cli stdin stdout cwd hlen
    rw [process_pipes_fuel, token_pipes_fuel]
    simp only [with_flags_head?, with_flags_get?]
    cases hh : tokens.head? with
    | none => rfl
    | some first =>
      simp only [Option.map_some']
      by_cases hcd : first = "cd".toList
      · simp only [hcd, if_true]
        cases tokens.get? 1 <;> rfl
      by_cases hsrc : first = "source".toList
      · simp only [hcd, hsrc, if_true, if_false]
        cases tokens.get? 1 <;> rfl
      by_cases hhelp : first = "help".toList
      · subst hhelp
        rfl
      simp only [hcd, hsrc, hhelp, if_false]
      cases hfind : find_op ["|".toList] tokens quoted with
      | none =>
        have hfind' := hfind
        rw [find_op_eq_token_find] at hfind'
        simp only [hfind', process_redirects_token]
      | some idx =>
        have hfind' := hfind
        rw [find_op_eq_token_find] at hfind'
        have hidx := (find_op_some _ _ _ _ hfind).2.2
        have hdrop : (tokens.drop (idx + 1)).length < f := by
          rw [List.length_drop]; omega
        simp only [hfind', process_redirects_token, with_flags_take,
          ih (tokens.drop (idx + 1)) (quoted.drop (idx + 1)) none Fd.pipe_read stdout cwd hdrop,
          with_flags_drop]

theorem process_pipes_token (w : World) (tokens : List (List Char)) (quoted : List Nat)
    (input_cli : Option (List Char)) (stdin stdout : Fd) (cwd : List Char) :
    process_pipes w tokens quoted input_cli stdin stdout cwd =
      token_pipes w (with_flags tokens quoted) input_cli stdin stdout cwd := by
  unfold process_pipes token_pipes
  rw [with_flags_length]
  exact process_pipes_fuel_token w _ tokens quoted input_cli stdin stdout cwd
    (Nat.lt_succ_self _)

/-- The sequence stage on two arrays does what the sequence stage on records does. -/
theorem process_sequence_fuel_token (w : World) : ∀ (f : Nat) (tokens : List (List Char))
    (quoted : List Nat) (input_cli : Option (List Char)) (stdin stdout : Fd)
    (cwd : List Char), tokens.length < f →
    process_sequence_fuel w f tokens quoted input_cli stdin stdout cwd =
      token_sequence_fuel w f (with_flags tokens quoted) input_cli stdin stdout cwd := by
  intro f
  induction f with
  | zero => intro tokens quoted input_cli stdin stdout cwd h; omega
  | succ f ih =>
    intro tokens quoted input_cli stdin stdout cwd hlen
    rw [process_sequence_fuel, token_sequence_fuel]
    cases hfind : find_op [";".toList] tokens quoted with
    | none =>
      have hfind' := hfind
      rw [find_op_eq_token_find] at hfind'
      simp only [hfind', process_pipes_token]
    | some idx =>
      have hfind' := hfind
      rw [find_op_eq_token_find] at hfind'
      have hidx := (find_op_some _ _ _ _ hfind).2.2
      have hdrop : (tokens.drop (idx + 1)).length < f := by
        rw [List.length_drop]; omega
      simp only [hfind', process_pipes_token, with_flags_take,
        ih (tokens.drop (idx + 1)) (quoted.drop (idx + 1)) input_cli stdin stdout cwd hdrop,
        with_flags_drop]

theorem process_sequence_token (w : World) (tokens : List (List Char)) (quoted : List Nat)
    (input_cli : Option (List Char)) (stdin stdout : Fd) (cwd : List Char) :
    process_sequence w tokens quoted input_cli stdin stdout cwd =
      token_sequence w (with_flags tokens quoted) input_cli stdin stdout cwd := by
  unfold process_sequence token_sequence
  rw [with_flags_length]
  exact process_sequence_fuel_token w _ tokens quoted input_cli stdin stdout cwd
    (Nat.lt_succ_self _)

/-! ## The claims about the evaluator -/

/-- C3: a token whose flag is set is never taken for an operator by `process_sequence`,
`process_pipes` or `process_redirects`. For every token array and flag array, each of
the three stages does exactly what the same stage does on records that carry their own
flag, where a stage splits only at a record that is not quoted: so through every
recursive sub-range the flag read for a token is the flag of that token. When the first
token is not a built-in name and every token spelled `;`, `|`, `<` or `>` has its flag
set, the line is one process execution whose argument vector is the whole token list.
On `a | b "|" c` the quoted bar is an argument of `b` in the consumer, on
`cmd < in ">" x` the quoted `>` is an argument in the range behind the file name, and on
`a ; b ";" c | d "<" e` the quoted `;` and `<` are arguments inside the pipeline. -/
theorem quoted_operators_are_arguments (w : World) (tokens : List (List Char))
    (quoted : List Nat) (input_cli : Option (List Char)) (stdin stdout : Fd)
    (cwd : List Char) :
    (process_sequence w tokens quoted input_cli stdin stdout cwd =
        token_sequence w (with_flags tokens quoted) input_cli stdin stdout cwd ∧
      process_pipes w tokens quoted input_cli stdin stdout cwd =
        token_pipes w (with_flags tokens quoted) input_cli stdin stdout cwd ∧
      process_redirects w tokens quoted stdin stdout cwd =
        token_redirects w (with_flags tokens quoted) stdin stdout cwd) ∧
    (∀ (ops : List (List Char)) (ts : List Token) (idx : Nat),
      token_find ops ts = some idx →
      ∃ t, ts[idx]? = some t ∧ t.quoted = false ∧ t.text ∈ ops) ∧
    (∀ first : List Char, tokens.head? = some first →
      first ≠ "cd".toList → first ≠ "source".toList → first ≠ "help".toList →
      tokens.length ≤ quoted.length →
      (∀ p ∈ tokens.zip quoted,
        p.1 ∈ [";".toList, "|".toList, "<".toList, ">".toList] → p.2 = 1) →
      process_sequence w tokens quoted input_cli stdin stdout cwd =
        { steps := [Step.exec tokens stdin stdout cwd], cwd := cwd, input_cli := input_cli,
          alive := true }) ∧
    process_input w 1 "echo \";\" \"|\" \"<\" \">\"".toList [] cwd =
      some { steps := [Step.exec ["echo".toList, [';'], ['|'], ['<'], ['>']]
                        Fd.inherited Fd.inherited cwd],
             cwd := cwd, input_cli := some "echo \";\" \"|\" \"<\" \">\"".toList,
             alive := true } ∧
    (process_input w 1 "a | b \"|\" c".toList [] cwd).map Run.steps =
      some [Step.fork_wait [Step.pipeline
              [Step.exec [['a']] Fd.inherited Fd.pipe_write cwd]
              [Step.exec [['b'], ['|'], ['c']] Fd.pipe_read Fd.inherited cwd]]] ∧
    (process_input open_world 1 "cmd < in \">\" x".toList [] cwd).map Run.steps =
      some [Step.fork_wait [Step.open_in "in".toList true,
              Step.exec ["cmd".toList] (Fd.file "in".toList) Fd.inherited cwd],
            Step.exec [['>'], ['x']] Fd.inherited Fd.inherited cwd] ∧
    (process_input w 1 "a ; b \";\" c | d \"<\" e".toList [] cwd).map Run.steps =
      some [Step.fork_wait [Step.exec [['a']] Fd.inherited Fd.inherited cwd],
            Step.fork_wait [Step.pipeline
              [Step.exec [['b'], [';'], ['c']] Fd.inherited Fd.pipe_write cwd]
              [Step.exec [['d'], ['<'], ['e']] Fd.pipe_read Fd.inherited cwd]]] := by
  refine ⟨⟨process_sequence_token w tokens quoted input_cli stdin stdout cwd,
      process_pipes_token w tokens quoted input_cli stdin stdout cwd,
      process_redirects_token w tokens quoted stdin stdout cwd⟩,
    token_find_some, ?_, by rfl, by rfl, by rfl, by rfl⟩
  intro first hfirst hcd hsource hhelp hlen hq
  have hseq : find_op [";".toList] tokens quoted = none :=
    find_op_none_of_flagged _ tokens quoted hlen (fun p hp hm => hq p hp (by
      simp only [List.mem_singleton] at hm; simp [hm]))
  have hpipe : find_op ["|".toList] tokens quoted = none :=
    find_op_none_of_flagged _ tokens quoted hlen (fun p hp hm => hq p hp (by
      simp only [List.mem_singleton] at hm; simp [hm]))
  have hred : find_op ["<".toList, ">".toList] tokens quoted = none :=
    find_op_none_of_flagged _ tokens quoted hlen (fun p hp hm => hq p hp (by
      simp only [List.mem_cons, List.mem_singleton, List.not_mem_nil, or_false] at hm
      rcases hm with hm | hm <;> simp [hm]))
  simp only [process_sequence, process_sequence_fuel, hseq, process_pipes,
    process_pipes_fuel, hfirst, hcd, hsource, hhelp, if_false, hpipe, process_redirects,
    process_redirects_fuel, hred, exec_cmd]

/-- Witness for C3: the tokens and flags of the line `echo ";" "|" "<" ">"`, where every
operator spelling is flagged, and of `a | b "|" c`, where the stages recurse. -/
theorem quoted_operators_are_arguments_witness :
    process_sequence open_world ["echo".toList, [';'], ['|'], ['<'], ['>']] [0, 1, 1, 1, 1]
        none Fd.inherited Fd.inherited [] =
      { steps := [Step.exec ["echo".toList, [';'], ['|'], ['<'], ['>']]
                    Fd.inherited Fd.inherited []],
        cwd := [], input_cli := none, alive := true } ∧
    process_sequence open_world [['a'], ['|'], ['b'], ['|'], ['c']] [0, 0, 0, 1, 0]
        none Fd.inherited Fd.inherited [] =
      token_sequence open_world
        [⟨['a'], false⟩, ⟨['|'], false⟩, ⟨['b'], false⟩, ⟨['|'], true⟩, ⟨['c'], false⟩]
        none Fd.inherited Fd.inherited [] :=
  ⟨(quoted_operators_are_arguments open_world ["echo".toList, [';'], ['|'], ['<'], ['>']]
      [0, 1, 1, 1, 1] none Fd.inherited Fd.inherited []).2.2.1 "echo".toList rfl (by decide)
      (by decide) (by decide) (by decide) (by decide),
    (quoted_operators_are_arguments open_world [['a'], ['|'], ['b'], ['|'], ['c']]
      [0, 0, 0, 1, 0] none Fd.inherited Fd.inherited []).1.1⟩

/-- C6: `process_sequence` gives the pipe stage, from left to right, exactly the
sub-ranges between the unquoted `;` tokens of its range: each one but the last in a
child that is waited for before the next one starts and whose outcome is not looked at,
the last one in the calling process. The sub-ranges joined by `;` are the range, none
of them holds an unquoted `;`, and a range without an unquoted `;` goes to the pipe
stage whole, once. In `a ; b ";" ; c` the quoted `;` stays an argument of `b`. -/
theorem process_sequence_splits_at_semicolons (w : World) (tokens : List (List Char))
    (quoted : List Nat) (input_cli : Option (List Char)) (stdin stdout : Fd)
    (cwd : List Char) :
    process_sequence w tokens quoted input_cli stdin stdout cwd =
      spec_run_segments w input_cli stdin stdout cwd (spec_split tokens quoted) ∧
    [";".toList].intercalate ((spec_split tokens quoted).map Prod.fst) = tokens ∧
    (∀ seg ∈ spec_split tokens quoted, ∀ p ∈ seg.1.zip seg.2, p.1 = ";".toList → p.2 = 1) ∧
    (tokens.length ≤ quoted.length → (∀ p ∈ tokens.zip quoted, p.1 = ";".toList → p.2 = 1) →
      process_sequence w tokens quoted input_cli stdin stdout cwd =
        process_pipes w tokens quoted input_cli stdin stdout cwd) ∧
    (process_sequence w [['a'], [';'], ['b'], [';'], [';'], ['c']] [0, 0, 0, 1, 0, 0]
        input_cli stdin stdout cwd).steps =
      [Step.fork_wait [Step.exec [['a']] stdin stdout cwd],
       Step.fork_wait [Step.exec [['b'], [';']] stdin stdout cwd],
       Step.exec [['c']] stdin stdout cwd] := by
  have hmain := process_sequence_fuel_eq w input_cli stdin stdout cwd (tokens.length + 1)
    tokens quoted (Nat.lt_succ_self _)
  refine ⟨hmain, (spec_split_sound _ tokens quoted le_rfl).1,
    (spec_split_sound _ tokens quoted le_rfl).2, ?_, by rfl⟩
  intro hlen hq
  have hnone : find_op [";".toList] tokens quoted = none :=
    find_op_none_of_flagged _ tokens quoted hlen (fun p hp hm => hq p hp (by simpa using hm))
  unfold process_sequence at hmain ⊢
  rw [hmain, spec_split_of_none tokens quoted hnone]
  simp [spec_run_segments]

/-- Counterexample to C5 as stated: on the line `cd /tmp ; ls`, with `/tmp` existing, `cd`
runs in the child forked for the part before the `;`, and the interpreter is still in
`/` when the line has been evaluated. -/
theorem cd_before_semicolon_is_lost :
    open_world.chdir "/".toList "/tmp".toList = some "/tmp".toList ∧
    (run_shell open_world 2 "/".toList "cd /tmp ; ls\n".toList).map Run.steps =
      some [Step.fork_wait [Step.chdir "/tmp".toList true],
            Step.exec ["ls".toList] Fd.inherited Fd.inherited "/".toList] ∧
    (run_shell open_world 2 "/".toList "cd /tmp ; ls\n".toList).map Run.cwd =
      some "/".toList ∧
    (run_shell open_world 2 "/".toList "cd /tmp ; ls\n".toList).map Run.cwd ≠
      some "/tmp".toList := by
  have h : (run_shell open_world 2 "/".toList "cd /tmp ; ls\n".toList).map Run.cwd =
      some "/".toList := by rfl
  refine ⟨rfl, by rfl, h, ?_⟩
  rw [h]
  decide

/-- C5 (amended): `cd path` with an existing path changes the working directory of the
interpreter itself when it is the whole range or the last sub-range after an unquoted
`;`: the `chdir` is a step of the calling process, not of a child, and the directory
afterwards is the one `chdir` gives. When `cd path` is followed by an unquoted `;` it
runs in the child forked for that sub-range, and the calling process is left as the
rest of the line alone leaves it. In the session `ls ; cd /tmp`, `ls` the second line
runs in `/tmp`. -/
theorem cd_in_last_segment_changes_directory (w : World) (pre : List (List Char))
    (qpre : List Nat) (path : List Char) (qsemi qcd qpath : Nat) (qrest : List Nat)
    (input_cli : Option (List Char)) (stdin stdout : Fd) (cwd d : List Char)
    (hlen : pre.length = qpre.length) (hsemi : qsemi ≠ 1)
    (hpath : ¬ (path = ";".toList ∧ qpath ≠ 1))
    (hdir : w.chdir cwd path = some d) :
    process_sequence w ["cd".toList, path] (qcd :: qpath :: qrest) input_cli stdin stdout cwd =
      { steps := [Step.chdir path true], cwd := d, input_cli := input_cli, alive := true } ∧
    (∃ before,
      process_sequence w (pre ++ ";".toList :: ["cd".toList, path])
          (qpre ++ qsemi :: qcd :: qpath :: qrest) input_cli stdin stdout cwd =
        { steps := before ++ [Step.chdir path true], cwd := d, input_cli := input_cli,
          alive := true }) ∧
    (∀ rest : List (List Char),
      process_sequence w ("cd".toList :: path :: ";".toList :: rest)
          (qcd :: qpath :: qsemi :: qrest) input_cli stdin stdout cwd =
        { process_sequence w rest qrest input_cli stdin stdout cwd with
          steps := Step.fork_wait [Step.chdir path true] ::
            (process_sequence w rest qrest input_cli stdin stdout cwd).steps }) ∧
    (run_shell open_world 2 "/".toList "ls ; cd /tmp\nls\n".toList).map
        (fun r => (r.steps, r.cwd)) =
      some ([Step.fork_wait [Step.exec ["ls".toList] Fd.inherited Fd.inherited "/".toList],
             Step.chdir "/tmp".toList true,
             Step.exec ["ls".toList] Fd.inherited Fd.inherited "/tmp".toList],
            "/tmp".toList) := by
  have hnone := find_op_cd_none path qcd qpath qrest hpath
  have hcd := process_pipes_cd w path (qcd :: qpath :: qrest) input_cli stdin stdout cwd d hdir
  refine ⟨?_, ?_, ?_, by rfl⟩
  · simp only [process_sequence, process_sequence_fuel, hnone]
    exact hcd
  · have hlast := spec_split_from_last ["cd".toList, path] (qcd :: qpath :: qrest) qsemi hsemi
      hnone pre qpre [] (qpre ++ qsemi :: qcd :: qpath :: qrest) hlen
    obtain ⟨before, hb⟩ := spec_run_segments_last w input_cli stdin stdout cwd _ _ hlast
    refine ⟨before, ?_⟩
    have hmain := process_sequence_fuel_eq w input_cli stdin stdout cwd _
      (pre ++ ";".toList :: ["cd".toList, path]) (qpre ++ qsemi :: qcd :: qpath :: qrest)
      (Nat.lt_succ_self _)
    unfold process_sequence
    rw [hmain]
    unfold spec_split
    rw [hb, hcd]
  · intro rest
    have h1 : ([";".toList].contains "cd".toList &&
        (qcd :: qpath :: qsemi :: qrest).headD 0 != 1) = false := by
      have : [";".toList].contains "cd".toList = false := by decide
      rw [this]; rfl
    have h2 : ([";".toList].contains path && (qpath :: qsemi :: qrest).headD 0 != 1)
        = false := by
      by_cases hp : path = ";".toList
      · have hq : qpath = 1 := by
          by_contra hne
          exact hpath ⟨hp, hne⟩
        subst hq
        simp
      · have : [";".toList].contains path = false := by
          rw [← Bool.not_eq_true, contains_iff_mem]
          simpa using hp
        rw [this]; rfl
    have h3 : ([";".toList].contains ";".toList && (qsemi :: qrest).headD 0 != 1) = true := by
      have : [";".toList].contains ";".toList = true := by decide
      rw [this]
      simpa using hsemi
    have hfind : find_op [";".toList] ("cd".toList :: path :: ";".toList :: rest)
        (qcd :: qpath :: qsemi :: qrest) = some 2 := by
      simp only [find_op, h1, h2, h3, List.tail_cons, Bool.false_eq_true, if_false, if_true,
        Option.map_some', zero_add]
    have hfuel := process_sequence_fuel_enough w input_cli stdin stdout cwd
      (rest.length + 3) rest qrest (by omega)
    have hcd' := process_pipes_cd w path (qcd :: qpath :: qsemi :: qrest) input_cli stdin
      stdout cwd d hdir
    unfold process_sequence
    rw [process_sequence_fuel_some w input_cli stdin stdout cwd _ _ _ 2 hfind]
    simp only [List.take, List.drop, List.length_cons, hcd']
    rw [hfuel]
    rfl

/-- Witness for C5: the tokens of `ls ; cd /tmp` in a world where `/tmp` exists. -/
theorem cd_in_last_segment_changes_directory_witness :
    open_world.chdir "/".toList "/tmp".toList = some "/tmp".toList ∧
    ∃ before,
      process_sequence open_world (["ls".toList] ++ ";".toList :: ["cd".toList, "/tmp".toList])
          ([0] ++ 0 :: 0 :: 0 :: []) none Fd.inherited Fd.inherited "/".toList =
        { steps := before ++ [Step.chdir "/tmp".toList true], cwd := "/tmp".toList,
          input_cli := none, alive := true } :=
  ⟨rfl, (cd_in_last_segment_changes_directory open_world ["ls".toList] [0] "/tmp".toList
    0 0 0 [] none Fd.inherited Fd.inherited "/".toList "/tmp".toList rfl (by decide)
    (by decide) rfl).2.1⟩

/-- C4 (the code at the failing input): on `cmd < in > out`, with both files openable,
`cmd` runs once with its input on `in` and its output still on the inherited
descriptor; `out` is opened in a second child that then calls `exec_cmd` on an empty
range, and the parent calls `exec_cmd` on an empty range once more. -/
theorem redirects_are_not_combined :
    (process_input open_world 1 "cmd < in > out".toList [] "/".toList).map Run.steps =
      some [Step.fork_wait [Step.open_in "in".toList true,
              Step.exec ["cmd".toList] (Fd.file "in".toList) Fd.inherited "/".toList],
            Step.fork_wait [Step.open_out "out".toList true,
              Step.exec [] Fd.inherited (Fd.file "out".toList) "/".toList],
            Step.exec [] Fd.inherited Fd.inherited "/".toList] ∧
    process_redirects open_world ["cmd".toList, ['<'], "in".toList, ['>'], "out".toList]
        [0, 0, 0, 0, 0] Fd.inherited Fd.inherited "/".toList =
      [Step.fork_wait [Step.open_in "in".toList true,
         Step.exec ["cmd".toList] (Fd.file "in".toList) Fd.inherited "/".toList],
       Step.fork_wait [Step.open_out "out".toList true,
         Step.exec [] Fd.inherited (Fd.file "out".toList) "/".toList],
       Step.exec [] Fd.inherited Fd.inherited "/".toList] :=
  ⟨by rfl, by rfl⟩

/-- C9 (the code at the failing inputs): a line of one space makes `process_input` hand
the sentinel to `strcmp`; `ls ;` makes `process_pipes` do so in the interpreter and
`ls |` in the consumer child; `ls > out` ends with `exec_cmd` on an empty range, whose
`args[0]` is the sentinel. -/
theorem first_token_can_be_the_sentinel (w : World) (cwd : List Char) :
    (process_input w 1 " ".toList [] cwd).map (fun r => (r.steps, r.alive)) =
      some ([Step.null_deref], false) ∧
    (process_input w 1 "ls ;".toList [] cwd).map (fun r => (r.steps, r.alive)) =
      some ([Step.fork_wait [Step.exec ["ls".toList] Fd.inherited Fd.inherited cwd],
             Step.null_deref], false) ∧
    (process_input w 1 "ls |".toList [] cwd).map (fun r => (r.steps, r.alive)) =
      some ([Step.fork_wait [Step.pipeline
               [Step.exec ["ls".toList] Fd.inherited Fd.pipe_write cwd]
               [Step.null_deref]]], true) ∧
    (process_input open_world 1 "ls > out".toList [] cwd).map (fun r => (r.steps, r.alive)) =
      some ([Step.fork_wait [Step.open_out "out".toList true,
               Step.exec ["ls".toList] Fd.inherited (Fd.file "out".toList) cwd],
             Step.exec [] Fd.inherited Fd.inherited cwd], true) ∧
    (run_shell w 1 cwd " \nls\n".toList).map (fun r => (r.steps, r.alive)) =
      some ([Step.null_deref], false) :=
  ⟨by rfl, by rfl, by rfl, by rfl, by rfl⟩

/-- C10 (the code at the failing input): in the session `prev`, `prev` started without
history, the first line prints the message and leaves `prev` in the input buffer, so
the second line is processed with the stored line `prev`; the call of `process_input`
for it then calls itself without end, at every bound on the nesting. -/
theorem prev_after_prev_never_returns (w : World) (cwd : List Char) :
    run_shell w 1 cwd "prev\n".toList =
      some { steps := [Step.print
               "No previous commands run, please run a command before running \"prev\"".toList],
             cwd := cwd, input_cli := some ("prev".toList ++ [NUL, NUL]), alive := true } ∧
    (∀ depth : Nat,
      process_input w depth ("prev".toList ++ [NUL, NUL]) "prev".toList cwd = none) ∧
    (∀ depth : Nat, run_shell w depth cwd "prev\nprev\n".toList = none) := by
  refine ⟨by rfl, process_input_prev_prev w cwd, ?_⟩
  intro depth
  cases depth with
  | zero => rfl
  | succ d =>
    have hsecond : run_shell_loop w (d + 1) 10 ("prev".toList ++ [NUL, NUL]) cwd
        "prev\n".toList = none :=
      run_shell_loop_none w (d + 1) 9 _ cwd _ ("prev".toList ++ [NUL, NUL]) [] (by rfl)
        (by decide) (by decide) (process_input_prev_prev w cwd (d + 1))
    have hfirst := run_shell_loop_some w (d + 1) 10 [] cwd "prev\nprev\n".toList
      ("prev".toList ++ [NUL, NUL]) "prev\n".toList
      { steps := [Step.print
          "No previous commands run, please run a command before running \"prev\"".toList],
        cwd := cwd, input_cli := some ("prev".toList ++ [NUL, NUL]), alive := true }
      (by rfl) (by decide) (by decide) (by rfl) rfl
    simp only [Option.getD_some] at hfirst
    rw [hsecond] at hfirst
    exact hfirst

end Shell
